import Mathlib

/-!
# Verification of the MyOS second-brain app core logic

Shallow embedding of the state-derivation and mutation core of the MyOS
note-capture application (src/App.tsx and src/services/geminiService.ts),
together with theorems checking the natural-language specification against it.

Conventions of the embedding:
* JavaScript strings are Lean `String`s; optional fields are `Option`.
* JavaScript objects used as string-keyed records are association lists
  `List (String × α)` preserving key insertion order (`objGet` / `objSet`).
* Epoch-millisecond timestamps are embedded by the local calendar date they
  format to (`DateYMD`), since the code only ever renders them via
  `formatDate` as a `YYYY.MM.DD` string.
* JS truthiness on optional strings (`x || d`, `!x`) is modelled explicitly:
  `undefined` and `""` are the falsy string values.
-/

namespace MyOS

/-- The local calendar date of a timestamp.  The code stores `createdAt` as an
epoch-milliseconds number and only ever formats it via `formatDate` using the
local calendar fields, so the embedding keeps the (1-based month) date. -/
structure DateYMD where
  year : Nat
  month : Nat
  day : Nat
deriving DecidableEq, Repr

/-- `String(x).padStart(2, '0')` on a numeral. -/
def pad2 (n : Nat) : String := if n < 10 then "0" ++ toString n else toString n

/-- `formatDate` (App.tsx): renders a creation date as `YYYY.MM.DD`. -/
def formatDate (d : DateYMD) : String :=
  toString d.year ++ "." ++ pad2 d.month ++ "." ++ pad2 d.day

/-- One structured unit inside a Memory (types used by App.tsx; field set per
the gateway schema in geminiService.ts and §3 of the data model). -/
structure StructuredItem where
  title : String
  category : String
  description : String
  location : Option String := none
  rating : Option Int := none
  actionItem : Option String := none
  targetDate : Option String := none
  status : Option String := none
deriving DecidableEq, Repr

/-- One ingestion event (the `Memory` record of App.tsx). -/
structure Memory where
  id : String
  createdAt : DateYMD
  originalText : String
  rootCategory : String
  project : String
  subProject : Option String
  type : String
  tags : List String
  structuredContent : List StructuredItem
  attachedImage : Option String := none
deriving DecidableEq, Repr

/-- A planner-generated to-do (the `Task` record of App.tsx). -/
structure Task where
  id : String
  title : String
  day : Int
  status : String
  feedback : Option String := none
deriving DecidableEq, Repr

/-- The classification gateway's parsed response (`ProcessingResult`). -/
structure ProcessingResult where
  rootCategory : String
  project : String
  subProject : Option String
  type : String
  tags : List String
  items : List StructuredItem
deriving DecidableEq, Repr

/-- JS `x || d` for an optional string: `undefined` and `""` are falsy. -/
def jsOr (o : Option String) (d : String) : String :=
  match o with
  | none => d
  | some s => if s = "" then d else s

/-- JS `x || d` for a present string: only `""` is falsy. -/
def jsOrS (s d : String) : String := if s = "" then d else s

/-- JS truthiness of an optional string value, negated (`!x`). -/
def optFalsy (o : Option String) : Bool :=
  match o with
  | none => true
  | some s => s == ""

/-- JS `x || undefined` on a nullable string (used for `attachedImage`). -/
def jsOrUndef (o : Option String) : Option String :=
  if optFalsy o then none else o

/-- JS object lookup `o[k]` on a string-keyed record. -/
def objGet (o : List (String × α)) (k : String) : Option α :=
  (o.find? (fun e => e.1 == k)).map (fun e => e.2)

/-- JS object assignment `o[k] = v`: update the existing binding in place, or
append a new binding; key insertion order is preserved. -/
def objSet (o : List (String × α)) (k : String) (v : α) : List (String × α) :=
  if o.any (fun e => e.1 == k) then
    o.map (fun e => if e.1 == k then (k, v) else e)
  else o ++ [(k, v)]

/-- One step of `getProjectHierarchy`'s `memories.forEach` loop
(App.tsx 191-201): a memory with truthy `rootCategory` and truthy,
non-"General" `project` registers its project under its root category. -/
def hierarchyStep (h : List (String × List String)) (m : Memory) :
    List (String × List String) :=
  if m.rootCategory ≠ "" ∧ m.project ≠ "" ∧ m.project ≠ "General" then
    let h1 := if (objGet h m.rootCategory).isNone then objSet h m.rootCategory [] else h
    let projs := (objGet h1 m.rootCategory).getD []
    if m.project ∈ projs then h1 else objSet h1 m.rootCategory (projs ++ [m.project])
  else h

/-- `getProjectHierarchy` (App.tsx 191-201): every known category appears as a
key (with `[]`), then each memory contributes its project. -/
def getProjectHierarchy (cats : List String) (mems : List Memory) :
    List (String × List String) :=
  mems.foldl hierarchyStep (cats.foldl (fun h c => objSet h c []) [])

/-- The `projectToCategoryMap` built inside `handleProcessInput`
(App.tsx 316-317): flatten the hierarchy into project → owning category. -/
def projectToCategoryMap (h : List (String × List String)) :
    List (String × String) :=
  h.foldl (fun acc e => e.2.foldl (fun acc2 p => objSet acc2 p e.1) acc) []

/-- The (finalCategory, finalProject) reconciliation performed inline by
`handleProcessInput` (App.tsx 319-328 / 1009-1025) on the gateway's declared
pair, given the category list and the project-to-category reverse index.
`availableCategories[0]` on an empty list (JS `undefined`) is embedded as
`""`. -/
def reconcile (cats : List String) (p2c : List (String × String))
    (declCat declProj : String) : String × String :=
  if declProj = "General" then
    (if declCat ∈ cats then declCat else cats.headD "", "General")
  else if optFalsy (objGet p2c declProj) then
    (if declCat ∈ cats then declCat else cats.headD "", "General")
  else
    ((objGet p2c declProj).getD "", declProj)

/-- The reconciliation algorithm exactly as §4.2 of the spec words it:
if the declared project is "General", keep it and fall back to the first
known category when the declared one is unknown; if the declared project is
absent from the reverse index, force "General" with the same fallback; else
force the root category to the reverse index's recorded owner. -/
def specReconcile (cats : List String) (p2c : List (String × String))
    (declCat declProj : String) : String × String :=
  let fallbackCat := if declCat ∈ cats then declCat else cats.headD ""
  if declProj = "General" then (fallbackCat, "General")
  else
    match objGet p2c declProj with
    | none => (fallbackCat, "General")
    | some owner => (owner, declProj)

/-- The classification branch of `handleProcessInput` (App.tsx 314-339 /
998-1051): reconcile the gateway result against the hierarchy derived from
the current state, initialize item statuses to "pending", and prepend the
new Memory.  `Date.now()` is abstracted by the `newId` / `now` parameters. -/
def handleProcessInputStore (cats : List String) (mems : List Memory)
    (inputText : String) (img : Option String) (result : ProcessingResult)
    (newId : String) (now : DateYMD) : List Memory :=
  let p2c := projectToCategoryMap (getProjectHierarchy cats mems)
  let fin := reconcile cats p2c result.rootCategory result.project
  let newMemory : Memory :=
    { id := newId, createdAt := now, originalText := inputText,
      rootCategory := fin.1, project := fin.2, subProject := result.subProject,
      type := result.type, tags := result.tags,
      structuredContent := result.items.map (fun item => { item with status := some "pending" }),
      attachedImage := jsOrUndef img }
  newMemory :: mems

/-- Membership in an `objSet` result comes from the new binding or the old map. -/
theorem mem_objSet {o : List (String × α)} {k : String} {v : α} {e : String × α}
    (he : e ∈ objSet o k v) : e = (k, v) ∨ e ∈ o := by
  unfold objSet at he
  split at he
  · rcases List.mem_map.mp he with ⟨e0, he0, hmap⟩
    by_cases hk : (e0.1 == k) = true
    · rw [if_pos hk] at hmap
      exact Or.inl hmap.symm
    · rw [if_neg hk] at hmap
      exact Or.inr (hmap ▸ he0)
  · rcases List.mem_append.mp he with h | h
    · exact Or.inr h
    · exact Or.inl (by simpa using h)

/-- A successful `objGet` lookup exhibits a binding in the map. -/
theorem objGet_mem {o : List (String × α)} {k : String} {v : α}
    (h : objGet o k = some v) : (k, v) ∈ o := by
  unfold objGet at h
  cases hfind : o.find? (fun e => e.1 == k) with
  | none => simp [hfind] at h
  | some e0 =>
    have hmem := List.mem_of_find?_eq_some hfind
    have hpred := List.find?_some hfind
    simp only [beq_iff_eq] at hpred
    simp [hfind] at h
    have : (k, v) = e0 := by
      cases e0 with
      | mk a b => simp_all
    rw [this]; exact hmem

/-- Soundness predicate for a hierarchy entry: its key is a known category or
a (truthy) memory root category, and every project it lists is witnessed by a
memory in `S` under exactly that key. -/
def goodEntry (cats : List String) (S : List Memory) (e : String × List String) : Prop :=
  (e.1 ∈ cats ∨ e.1 ≠ "") ∧
  ∀ p ∈ e.2, ∃ m ∈ S, m.rootCategory = e.1 ∧ m.project = p ∧ p ≠ "General"

theorem goodEntry_init (cats : List String) (S : List Memory) :
    ∀ (l : List String) (acc : List (String × List String)),
      (∀ c ∈ l, c ∈ cats) → (∀ e ∈ acc, goodEntry cats S e) →
      ∀ e ∈ l.foldl (fun h c => objSet h c []) acc, goodEntry cats S e := by
  intro l
  induction l with
  | nil => intro acc _ hacc e he; exact hacc e he
  | cons c l ih =>
    intro acc hl hacc e he
    refine ih (objSet acc c []) (fun x hx => hl x (List.mem_cons_of_mem _ hx)) ?_ e he
    intro e0 he0
    rcases mem_objSet he0 with h | h
    · subst h
      exact ⟨Or.inl (hl c (List.mem_cons_self _ _)), by intro p hp; simp at hp⟩
    · exact hacc e0 h

theorem goodEntry_step (cats : List String) (S : List Memory) (m : Memory)
    (hm : m ∈ S) (h : List (String × List String))
    (hh : ∀ e ∈ h, goodEntry cats S e) :
    ∀ e ∈ hierarchyStep h m, goodEntry cats S e := by
  intro e he
  unfold hierarchyStep at he
  split at he
  case isTrue hguard =>
    obtain ⟨hrc, hpne, hpg⟩ := hguard
    set h1 := if (objGet h m.rootCategory).isNone then objSet h m.rootCategory [] else h with hh1
    have hh1good : ∀ e ∈ h1, goodEntry cats S e := by
      intro e0 he0
      rw [hh1] at he0
      split at he0
      · rcases mem_objSet he0 with h0 | h0
        · subst h0
          exact ⟨Or.inr hrc, by intro p hp; simp at hp⟩
        · exact hh e0 h0
      · exact hh e0 he0
    have hprojs : ∀ p ∈ (objGet h1 m.rootCategory).getD [],
        ∃ m0 ∈ S, m0.rootCategory = m.rootCategory ∧ m0.project = p ∧ p ≠ "General" := by
      cases hobj : objGet h1 m.rootCategory with
      | none => intro p hp; simp at hp
      | some v =>
        intro p hp
        simp only [hobj, Option.getD_some] at hp
        exact (hh1good (m.rootCategory, v) (objGet_mem hobj)).2 p hp
    simp only at he
    split at he
    · exact hh1good e he
    · rcases mem_objSet he with h0 | h0
      · subst h0
        refine ⟨Or.inr hrc, ?_⟩
        intro p hp
        rcases List.mem_append.mp hp with hp | hp
        · exact hprojs p hp
        · simp at hp
          subst hp
          exact ⟨m, hm, rfl, rfl, hpg⟩
      · exact hh1good e h0
  case isFalse => exact hh e he

theorem goodEntry_fold (cats : List String) (S : List Memory) :
    ∀ (l : List Memory) (acc : List (String × List String)),
      (∀ m ∈ l, m ∈ S) → (∀ e ∈ acc, goodEntry cats S e) →
      ∀ e ∈ l.foldl hierarchyStep acc, goodEntry cats S e := by
  intro l
  induction l with
  | nil => intro acc _ hacc e he; exact hacc e he
  | cons m l ih =>
    intro acc hl hacc e he
    exact ih (hierarchyStep acc m) (fun x hx => hl x (List.mem_cons_of_mem _ hx))
      (goodEntry_step cats S m (hl m (List.mem_cons_self _ _)) acc hacc) e he

/-- Every entry of the derived hierarchy is sound. -/
theorem getProjectHierarchy_good (cats : List String) (mems : List Memory) :
    ∀ e ∈ getProjectHierarchy cats mems, goodEntry cats mems e :=
  goodEntry_fold cats mems mems _ (fun _ hx => hx)
    (goodEntry_init cats mems cats [] (fun _ hx => hx) (by intro e he; simp at he))

/-- Soundness predicate for a reverse-index pair: the owning category is a
known category or truthy, and the binding is witnessed by a memory in `S`. -/
def goodPair (cats : List String) (S : List Memory) (q : String × String) : Prop :=
  (q.2 ∈ cats ∨ q.2 ≠ "") ∧
  ∃ m ∈ S, m.rootCategory = q.2 ∧ m.project = q.1 ∧ q.1 ≠ "General"

theorem goodPair_inner (cats : List String) (S : List Memory) (c : String)
    (hc : c ∈ cats ∨ c ≠ "") :
    ∀ (ps : List String) (acc : List (String × String)),
      (∀ q ∈ acc, goodPair cats S q) →
      (∀ p ∈ ps, ∃ m ∈ S, m.rootCategory = c ∧ m.project = p ∧ p ≠ "General") →
      ∀ q ∈ ps.foldl (fun a p => objSet a p c) acc, goodPair cats S q := by
  intro ps
  induction ps with
  | nil => intro acc hacc _ q hq; exact hacc q hq
  | cons p ps ih =>
    intro acc hacc hps q hq
    refine ih (objSet acc p c) ?_ (fun x hx => hps x (List.mem_cons_of_mem _ hx)) q hq
    intro q0 hq0
    rcases mem_objSet hq0 with h0 | h0
    · subst h0
      exact ⟨hc, hps p (List.mem_cons_self _ _)⟩
    · exact hacc q0 h0

theorem goodPair_fold (cats : List String) (S : List Memory) :
    ∀ (l : List (String × List String)) (acc : List (String × String)),
      (∀ e ∈ l, goodEntry cats S e) → (∀ q ∈ acc, goodPair cats S q) →
      ∀ q ∈ l.foldl (fun a e => e.2.foldl (fun a2 p => objSet a2 p e.1) a) acc,
        goodPair cats S q := by
  intro l
  induction l with
  | nil => intro acc _ hacc q hq; exact hacc q hq
  | cons e l ih =>
    intro acc hl hacc q hq
    have hge := hl e (List.mem_cons_self _ _)
    exact ih _ (fun x hx => hl x (List.mem_cons_of_mem _ hx))
      (goodPair_inner cats S e.1 hge.1 e.2 acc hacc hge.2) q hq

/-- Every pair of the project-to-category reverse index is sound. -/
theorem projectToCategoryMap_good (cats : List String) (mems : List Memory) :
    ∀ q ∈ projectToCategoryMap (getProjectHierarchy cats mems),
      goodPair cats mems q :=
  goodPair_fold cats mems _ [] (getProjectHierarchy_good cats mems)
    (by intro q hq; simp at hq)

/-- When no category is the empty string, the code's JS-truthiness test on the
reverse index agrees with plain membership, so the inline reconciliation of
`handleProcessInput` computes exactly the spec's §4.2 algorithm. -/
theorem reconcile_eq_specReconcile (cats : List String) (mems : List Memory)
    (declCat declProj : String) (hblank : "" ∉ cats) :
    reconcile cats (projectToCategoryMap (getProjectHierarchy cats mems))
        declCat declProj =
      specReconcile cats (projectToCategoryMap (getProjectHierarchy cats mems))
        declCat declProj := by
  unfold reconcile specReconcile
  by_cases hdp : declProj = "General"
  · simp [hdp]
  · simp only [hdp, if_false]
    cases hobj : objGet (projectToCategoryMap (getProjectHierarchy cats mems)) declProj with
    | none => simp [optFalsy]
    | some c =>
      have hgood := projectToCategoryMap_good cats mems (declProj, c) (objGet_mem hobj)
      have hc : c ≠ "" := by
        rcases hgood.1 with h | h
        · intro hcontra; rw [hcontra] at h; exact hblank h
        · exact h
      simp [optFalsy, hc]

/-- A sample Memory recording project "Japan" under category "Travel". -/
def japanMem : Memory :=
  { id := "m1", createdAt := ⟨2025, 10, 1⟩, originalText := "japan notes",
    rootCategory := "Travel", project := "Japan", subProject := none,
    type := "note", tags := [],
    structuredContent :=
      [{ title := "Fushimi Inari", category := "Sightseeing", description := "go" }] }

/-- The gateway reply of the spec's worked example: category "Life" with the
existing project "Japan". -/
def japanResult : ProcessingResult :=
  { rootCategory := "Life", project := "Japan", subProject := none,
    type := "note", tags := [], items := [] }

/-- C1: for every gateway classification result processed by
`handleProcessInput` against a non-empty category list (with no blank
category name), the new Memory is prepended, the existing collection is kept,
and the stored (rootCategory, project) pair equals the spec's §4.2
reconciliation algorithm applied to the declared pair over the reverse index
derived from the Memories collection. -/
theorem C1_stored_pair_is_spec_reconciliation
    (cats : List String) (mems : List Memory) (txt : String) (img : Option String)
    (result : ProcessingResult) (newId : String) (now : DateYMD)
    (_hne : cats ≠ []) (hblank : "" ∉ cats) :
    ∃ newMem rest,
      handleProcessInputStore cats mems txt img result newId now = newMem :: rest ∧
      rest = mems ∧
      (newMem.rootCategory, newMem.project) =
        specReconcile cats (projectToCategoryMap (getProjectHierarchy cats mems))
          result.rootCategory result.project := by
  refine ⟨_, mems, rfl, rfl, ?_⟩
  have hrw := reconcile_eq_specReconcile cats mems result.rootCategory result.project hblank
  simp only [← hrw]

/-- Witness for C1 at the spec's worked example: with categories
["Travel","Life"] and project "Japan" under "Travel", the gateway pair
("Life","Japan") reconciles to ("Travel","Japan"). -/
theorem C1_witness :
    ((["Travel", "Life"] : List String) ≠ [] ∧ "" ∉ ["Travel", "Life"]) ∧
    (∃ newMem rest,
      handleProcessInputStore ["Travel", "Life"] [japanMem] "t" none japanResult
          "m2" ⟨2025, 10, 2⟩ = newMem :: rest ∧
      rest = [japanMem] ∧
      (newMem.rootCategory, newMem.project) =
        specReconcile ["Travel", "Life"]
          (projectToCategoryMap (getProjectHierarchy ["Travel", "Life"] [japanMem]))
          japanResult.rootCategory japanResult.project) ∧
    specReconcile ["Travel", "Life"]
      (projectToCategoryMap (getProjectHierarchy ["Travel", "Life"] [japanMem]))
      "Life" "Japan" = ("Travel", "Japan") :=
  ⟨⟨by decide, by decide⟩,
   C1_stored_pair_is_spec_reconciliation ["Travel", "Life"] [japanMem] "t" none
     japanResult "m2" ⟨2025, 10, 2⟩ (by decide) (by decide),
   by decide⟩

/-- C3: reconciliation is idempotent: with the category list and the derived
project-to-category reverse index held fixed (and the category list
non-empty), reconciling the output of reconciliation yields the same final
(rootCategory, project) pair as reconciling once. -/
theorem C3_reconcile_idempotent (cats : List String) (p2c : List (String × String))
    (declCat declProj : String) (hne : cats ≠ []) :
    reconcile cats p2c (reconcile cats p2c declCat declProj).1
        (reconcile cats p2c declCat declProj).2 =
      reconcile cats p2c declCat declProj := by
  have hfb : (if declCat ∈ cats then declCat else cats.head?.getD "") ∈ cats := by
    split
    · assumption
    · cases cats with
      | nil => exact absurd rfl hne
      | cons c cs => simp
  by_cases hdp : declProj = "General"
  · simp only [reconcile, hdp]
    simp [hfb]
  · by_cases hfalsy : optFalsy (objGet p2c declProj) = true
    · simp only [reconcile, hdp, if_false, hfalsy, if_true]
      simp [hfb]
    · simp only [reconcile, hdp, if_false, hfalsy]
      simp [hdp, hfalsy]

/-- Witness for C3 at a concrete hierarchy: reconciling twice equals
reconciling once for the pair ("Life","Japan"). -/
theorem C3_witness :
    (["Travel", "Life"] : List String) ≠ [] ∧
    reconcile ["Travel", "Life"] [("Japan", "Travel")]
        (reconcile ["Travel", "Life"] [("Japan", "Travel")] "Life" "Japan").1
        (reconcile ["Travel", "Life"] [("Japan", "Travel")] "Life" "Japan").2 =
      reconcile ["Travel", "Life"] [("Japan", "Travel")] "Life" "Japan" :=
  ⟨by decide,
   C3_reconcile_idempotent ["Travel", "Life"] [("Japan", "Travel")] "Life" "Japan"
     (by decide)⟩

/-- JS `Array.prototype.filter` with an index callback, specialised to the
predicate `(_, idx) => idx !== k`; `i` is the index of the first element of
the remaining list. -/
def filterIdxNe (k : Nat) : List α → Nat → List α
  | [], _ => []
  | x :: xs, i => if i = k then filterIdxNe k xs (i + 1) else x :: filterIdxNe k xs (i + 1)

/-- `handleDeleteMemoryItem` (App.tsx 366-374 / 1090-1106): drop item
`itemIndex` from the memory with id `memoryId`, then keep only memories that
still have items or whose original text is the manual-creation sentinel. -/
def handleDeleteMemoryItem (mems : List Memory) (memoryId : String) (itemIndex : Nat) :
    List Memory :=
  (mems.map (fun mem =>
    if mem.id = memoryId then
      { mem with structuredContent := filterIdxNe itemIndex mem.structuredContent 0 }
    else mem)).filter
    (fun mem => decide (0 < mem.structuredContent.length) ||
      (mem.originalText == "Manual Project Creation"))

theorem filterIdxNe_eq (k : Nat) :
    ∀ (l : List α) (i : Nat),
      filterIdxNe k l i =
        if k < i then l else l.take (k - i) ++ l.drop (k - i + 1) := by
  intro l
  induction l with
  | nil => intro i; simp [filterIdxNe]
  | cons x xs ih =>
    intro i
    simp only [filterIdxNe]
    by_cases hik : i = k
    · subst hik
      rw [if_pos rfl, ih (i + 1), if_pos (Nat.lt_succ_self i), if_neg (Nat.lt_irrefl i)]
      simp
    · rw [if_neg hik]
      by_cases hlt : k < i
      · rw [ih (i + 1), if_pos (Nat.lt_succ_of_lt hlt), if_pos hlt]
      · have hki : i < k := Nat.lt_of_le_of_ne (Nat.le_of_not_lt hlt) hik
        rw [ih (i + 1), if_neg (by omega), if_neg hlt]
        have h1 : k - i = (k - (i + 1)) + 1 := by omega
        rw [h1]
        simp [List.take, List.drop]

/-- Items of the sample memories used for the C5 counterexample. -/
def itemA : StructuredItem :=
  { title := "a", category := "Note", description := "first" }

def itemB : StructuredItem :=
  { title := "b", category := "Note", description := "second" }

/-- A memory with two items, id "1". -/
def twoItemMem : Memory :=
  { id := "1", createdAt := ⟨2025, 1, 1⟩, originalText := "notes",
    rootCategory := "Life", project := "General", subProject := none,
    type := "note", tags := [], structuredContent := [itemA, itemB] }

/-- A memory whose item sequence is already empty and whose original text is
not the manual-creation sentinel (e.g. ingested from a gateway reply with an
empty items array), id "2". -/
def emptyMem : Memory :=
  { id := "2", createdAt := ⟨2025, 1, 1⟩, originalText := "empty note",
    rootCategory := "Life", project := "General", subProject := none,
    type := "note", tags := [], structuredContent := [] }

/-- Counterexample to C5 as stated: deleting item 0 of memory "1" also
removes the *other* memory "2" (already empty, not the sentinel), so the
other memories' contents do not all survive the call. -/
theorem C5_counterexample :
    emptyMem ∈ [twoItemMem, emptyMem] ∧ emptyMem.id ≠ "1" ∧
    emptyMem ∉ handleDeleteMemoryItem [twoItemMem, emptyMem] "1" 0 := by decide

/-- C5 (amended): `handleDeleteMemoryItem mems m k` removes the item at
position `k` of memory `m` (later items shift down one position); the
addressed memory is dropped if it thereby becomes empty unless its original
text is the sentinel "Manual Project Creation"; and the same emptiness
cleanup is applied to the whole collection, so any other memory that is
already empty and not the sentinel is removed as well, while every other
memory is kept with unchanged contents. -/
theorem C5_delete_item_characterization (mems : List Memory) (memoryId : String) (k : Nat) :
    handleDeleteMemoryItem mems memoryId k =
      mems.filterMap (fun mem =>
        let c := if mem.id = memoryId
                 then mem.structuredContent.take k ++ mem.structuredContent.drop (k + 1)
                 else mem.structuredContent
        if 0 < c.length ∨ mem.originalText = "Manual Project Creation"
        then some { mem with structuredContent := c } else none) := by
  induction mems with
  | nil => rfl
  | cons m ms ih =>
    simp only [handleDeleteMemoryItem, List.map_cons, List.filter_cons,
      List.filterMap_cons] at ih ⊢
    rw [filterIdxNe_eq k m.structuredContent 0, if_neg (Nat.not_lt_zero k)]
    simp only [Nat.sub_zero]
    by_cases hid : m.id = memoryId
    · simp only [if_pos hid]
      by_cases hkeep : 0 < (m.structuredContent.take k ++ m.structuredContent.drop (k + 1)).length ∨
          m.originalText = "Manual Project Creation"
      · rw [if_pos hkeep]
        have hb : (decide (0 < (m.structuredContent.take k ++ m.structuredContent.drop (k + 1)).length) ||
            (m.originalText == "Manual Project Creation")) = true := by
          rcases hkeep with h | h
          · rw [decide_eq_true h, Bool.true_or]
          · rw [beq_iff_eq.mpr h, Bool.or_true]
        rw [hb, if_pos rfl]
        rw [ih]
      · rw [if_neg hkeep]
        have hb : (decide (0 < (m.structuredContent.take k ++ m.structuredContent.drop (k + 1)).length) ||
            (m.originalText == "Manual Project Creation")) = false := by
          have h1 := fun hc => hkeep (Or.inl hc)
          have h2 := fun hc => hkeep (Or.inr hc)
          rw [decide_eq_false h1, beq_eq_false_iff_ne.mpr h2, Bool.or_false]
        rw [hb, if_neg Bool.false_ne_true]
        rw [ih]
    · simp only [if_neg hid]
      by_cases hkeep : 0 < m.structuredContent.length ∨
          m.originalText = "Manual Project Creation"
      · rw [if_pos hkeep]
        have hb : (decide (0 < m.structuredContent.length) ||
            (m.originalText == "Manual Project Creation")) = true := by
          rcases hkeep with h | h
          · rw [decide_eq_true h, Bool.true_or]
          · rw [beq_iff_eq.mpr h, Bool.or_true]
        rw [hb, if_pos rfl]
        rw [ih]
      · rw [if_neg hkeep]
        have hb : (decide (0 < m.structuredContent.length) ||
            (m.originalText == "Manual Project Creation")) = false := by
          have h1 := fun hc => hkeep (Or.inl hc)
          have h2 := fun hc => hkeep (Or.inr hc)
          rw [decide_eq_false h1, beq_eq_false_iff_ne.mpr h2, Bool.or_false]
        rw [hb, if_neg Bool.false_ne_true]
        rw [ih]

/-- The status flip of `handleTaskComplete` on a memory item (App.tsx 355):
`status === 'pending' ? 'completed' : 'pending'` (an absent status is not
equal to "pending", so it flips to "pending"). -/
def toggleStatus (s : Option String) : Option String :=
  some (if s = some "pending" then "completed" else "pending")

/-- The per-memory body of the memory branch of `handleTaskComplete`
(App.tsx 351-360): on an id match, flip the status of the item at `idx`
when that index is in bounds (the code copies the array and writes only if
`newContent[idx]` is defined). -/
def toggleMemOne (memId : String) (idx : Nat) (mem : Memory) : Memory :=
  if mem.id = memId then
    match mem.structuredContent.get? idx with
    | some it =>
        { mem with structuredContent :=
            mem.structuredContent.set idx { it with status := toggleStatus it.status } }
    | none => mem
  else mem

/-- The per-task body of the task branch of `handleTaskComplete`
(App.tsx 362). -/
def toggleTaskOne (id : String) (t : Task) : Task :=
  if t.id = id then
    { t with status := if t.status = "pending" then "completed" else "pending" }
  else t

/-- Which record `handleTaskComplete` addresses.  The code receives a string
id with the `isMemoryItem` flag and, for memory items, splits the composite
id `memoryId_index` at the underscore and parses the index; the embedding
carries the parsed form. -/
inductive CompleteTarget where
  | task (id : String)
  | memoryItem (memId : String) (idx : Nat)
deriving DecidableEq, Repr

/-- `handleTaskComplete` (App.tsx 347-364 / 1061-1088). -/
def handleTaskComplete (mems : List Memory) (tasks : List Task) :
    CompleteTarget → List Memory × List Task
  | .memoryItem memId idx => (mems.map (toggleMemOne memId idx), tasks)
  | .task id => (mems, tasks.map (toggleTaskOne id))

/-- The addressed record exists, and every record the call touches carries a
well-formed ("pending"/"completed") status. -/
def togglable (mems : List Memory) (tasks : List Task) : CompleteTarget → Prop
  | .task id =>
      (∃ t ∈ tasks, t.id = id) ∧
      ∀ t ∈ tasks, t.id = id → t.status = "pending" ∨ t.status = "completed"
  | .memoryItem memId idx =>
      (∃ m ∈ mems, m.id = memId ∧ idx < m.structuredContent.length) ∧
      ∀ m ∈ mems, m.id = memId → ∀ it, m.structuredContent.get? idx = some it →
        it.status = some "pending" ∨ it.status = some "completed"

theorem set_get?_self : ∀ (l : List α) (i : Nat) (x : α),
    l.get? i = some x → l.set i x = l
  | [], _, _ => by intro h; simp at h
  | a :: l, 0, x => by intro h; simp_all
  | a :: l, i + 1, x => by
      intro h
      simp only [List.get?] at h
      simp only [List.set]
      rw [set_get?_self l i x h]

theorem get?_set_self : ∀ (l : List α) (i : Nat) (x : α),
    i < l.length → (l.set i x).get? i = some x
  | [], i, _ => by intro h; simp at h
  | _ :: _, 0, _ => by intro _; rfl
  | a :: l, i + 1, x => by
      intro h
      simp only [List.set, List.get?]
      exact get?_set_self l i x (Nat.lt_of_succ_lt_succ h)

theorem set_set_self : ∀ (l : List α) (i : Nat) (x y : α),
    (l.set i x).set i y = l.set i y
  | [], _, _, _ => rfl
  | _ :: _, 0, _, _ => rfl
  | a :: l, i + 1, x, y => by
      simp only [List.set]
      rw [set_set_self l i x y]

theorem map_id_of_mem (l : List α) (f : α → α) (h : ∀ x ∈ l, f x = x) :
    l.map f = l := by
  induction l with
  | nil => rfl
  | cons x xs ih =>
    simp only [List.map_cons]
    rw [h x (List.mem_cons_self _ _), ih (fun y hy => h y (List.mem_cons_of_mem _ hy))]

theorem toggleStatus_twice (s : Option String)
    (hs : s = some "pending" ∨ s = some "completed") :
    toggleStatus (toggleStatus s) = s := by
  rcases hs with h | h <;> rw [h] <;> decide

theorem toggleTaskOne_twice (id : String) (t : Task)
    (ht : t.id = id → t.status = "pending" ∨ t.status = "completed") :
    toggleTaskOne id (toggleTaskOne id t) = t := by
  by_cases hid : t.id = id
  · rcases ht hid with hst | hst <;>
      · simp [toggleTaskOne, hid, hst]
        rw [← hid, ← hst]
  · simp [toggleTaskOne, hid]

theorem toggleMemOne_twice (memId : String) (idx : Nat) (m : Memory)
    (hm : m.id = memId → ∀ it, m.structuredContent.get? idx = some it →
      it.status = some "pending" ∨ it.status = some "completed") :
    toggleMemOne memId idx (toggleMemOne memId idx m) = m := by
  by_cases hid : m.id = memId
  · cases hobj : m.structuredContent.get? idx with
    | none =>
      have h1 : toggleMemOne memId idx m = m := by
        unfold toggleMemOne
        rw [if_pos hid, hobj]
      rw [h1, h1]
    | some it =>
      have hlt : idx < m.structuredContent.length := by
        by_contra hc
        rw [List.get?_eq_none.mpr (Nat.le_of_not_lt hc)] at hobj
        exact Option.noConfusion hobj
      have h1 : toggleMemOne memId idx m =
          { m with structuredContent :=
              m.structuredContent.set idx { it with status := toggleStatus it.status } } := by
        unfold toggleMemOne
        rw [if_pos hid, hobj]
      have hid1 : ({ m with structuredContent :=
          m.structuredContent.set idx { it with status := toggleStatus it.status } } :
            Memory).id = memId := hid
      have hobj1 : ({ m with structuredContent :=
          m.structuredContent.set idx { it with status := toggleStatus it.status } } :
            Memory).structuredContent.get? idx =
          some { it with status := toggleStatus it.status } :=
        get?_set_self _ idx _ hlt
      have h2 : toggleMemOne memId idx
          { m with structuredContent :=
              m.structuredContent.set idx { it with status := toggleStatus it.status } } =
          { m with structuredContent :=
              ((m.structuredContent.set idx
                  { it with status := toggleStatus it.status }).set idx
                ({ it with status := toggleStatus (toggleStatus it.status) })) } := by
        unfold toggleMemOne
        rw [if_pos hid1, hobj1]
      rw [h1, h2, set_set_self,
        toggleStatus_twice it.status (hm hid it hobj),
        set_get?_self _ idx it hobj]
  · have h1 : toggleMemOne memId idx m = m := by
      unfold toggleMemOne
      rw [if_neg hid]
    rw [h1, h1]

/-- C10: completion toggling is an involution: for every Memories collection
and Task list, and every identifier addressing a Task by id or a
StructuredItem by (memory id, index) whose addressed record exists with a
"pending"/"completed" status, applying `handleTaskComplete` twice with the
same identifier and kind restores both collections. -/
theorem C10_toggle_involution (mems : List Memory) (tasks : List Task)
    (tgt : CompleteTarget) (h : togglable mems tasks tgt) :
    handleTaskComplete (handleTaskComplete mems tasks tgt).1
        (handleTaskComplete mems tasks tgt).2 tgt = (mems, tasks) := by
  cases tgt with
  | task id =>
    obtain ⟨-, hall⟩ := h
    simp only [handleTaskComplete, List.map_map]
    refine Prod.ext rfl ?_
    exact map_id_of_mem tasks _ (fun t ht => toggleTaskOne_twice id t (hall t ht))
  | memoryItem memId idx =>
    obtain ⟨-, hall⟩ := h
    simp only [handleTaskComplete, List.map_map]
    refine Prod.ext ?_ rfl
    exact map_id_of_mem mems _ (fun m hmem => toggleMemOne_twice memId idx m (hall m hmem))

/-- Sample records for the C10 witness. -/
def sampleTask : Task := { id := "t1", title := "Day 1: pack", day := 1, status := "pending" }

/-- Witness for C10: toggling the concrete pending Task "t1" twice restores
the collections. -/
theorem C10_witness :
    togglable [japanMem] [sampleTask] (.task "t1") ∧
    handleTaskComplete (handleTaskComplete [japanMem] [sampleTask] (.task "t1")).1
        (handleTaskComplete [japanMem] [sampleTask] (.task "t1")).2 (.task "t1") =
      ([japanMem], [sampleTask]) :=
  ⟨⟨⟨sampleTask, by decide, rfl⟩, by decide⟩,
   C10_toggle_involution [japanMem] [sampleTask] (.task "t1")
     ⟨⟨sampleTask, by decide, rfl⟩, by decide⟩⟩

/-- A row of the unified Today/agenda list (the fields the view renders). -/
structure AgendaItem where
  id : String
  title : String
  status : String
  isMemory : Bool
  tag : String
deriving DecidableEq, Repr

/-- Projection of a plan Task into an agenda row
(`{...t, isMemory: false, tag: 'Coach Plan'}`, App.tsx 526/1493). -/
def taskAgendaItem (t : Task) : AgendaItem :=
  { id := t.id, title := t.title, status := t.status, isMemory := false,
    tag := "Coach Plan" }

/-- Projection of a memory item into an agenda row (App.tsx 525/1480-1486):
composite id, `status || 'pending'`, and the project (or, for "General", the
root category) as tag. -/
def memoryAgendaItem (mem : Memory) (idx : Nat) (item : StructuredItem) : AgendaItem :=
  { id := mem.id ++ "_" ++ toString idx, title := item.title,
    status := jsOr item.status "pending", isMemory := true,
    tag := if mem.project = "General" then mem.rootCategory else mem.project }

/-- `renderTodayView`'s derivation of the unified agenda list
(App.tsx 515-526 / 1457-1495), as a function of `diffDays` (the whole-day
difference between the selected calendar date and today at local midnight)
and of the selected date formatted as `YYYY.MM.DD`.  The `memoryTasks`
accumulator mirrors the nested forEach/push loops of the source. -/
def agendaItems (tasks : List Task) (mems : List Memory) (diffDays : Int)
    (dateStr : String) : List AgendaItem :=
  let planDayNumber := diffDays + 1
  let standardTasks := tasks.filter (fun t => t.day == planDayNumber)
  let memoryTasks := mems.foldl (fun acc mem =>
    (mem.structuredContent.foldl (fun (st : List AgendaItem × Nat) item =>
        (if item.targetDate = some dateStr
         then st.1 ++ [memoryAgendaItem mem st.2 item] else st.1, st.2 + 1))
      (acc, 0)).1) []
  standardTasks.map taskAgendaItem ++ memoryTasks

/-- The agenda contents as §4.4 of the spec words them: first the Tasks whose
relative day number equals diffDays + 1, in collection order, then one row
per StructuredItem whose targetDate string equals the formatted date, in
memory-then-item positional order. -/
def agendaItemsSpec (tasks : List Task) (mems : List Memory) (diffDays : Int)
    (dateStr : String) : List AgendaItem :=
  (tasks.filter (fun t => t.day == diffDays + 1)).map taskAgendaItem ++
  mems.flatMap (fun mem =>
    mem.structuredContent.enum.filterMap (fun p =>
      if p.2.targetDate = some dateStr then some (memoryAgendaItem mem p.1 p.2)
      else none))

theorem foldl_push_enumFrom {α β : Type _} (P : α → Prop) [DecidablePred P]
    (g : Nat → α → β) :
    ∀ (l : List α) (acc : List β) (i : Nat),
      (l.foldl (fun (st : List β × Nat) item =>
          (if P item then st.1 ++ [g st.2 item] else st.1, st.2 + 1)) (acc, i)).1 =
        acc ++ (l.enumFrom i).filterMap
          (fun p => if P p.2 then some (g p.1 p.2) else none) := by
  intro l
  induction l with
  | nil => intro acc i; simp
  | cons x xs ih =>
    intro acc i
    rw [List.foldl_cons]
    by_cases hx : P x
    · simp only [if_pos hx]
      rw [ih (acc ++ [g i x]) (i + 1)]
      simp [List.enumFrom, hx]
    · simp only [if_neg hx]
      rw [ih acc (i + 1)]
      simp [List.enumFrom, hx]

theorem foldl_body_bind {α β : Type _} (body : List β → α → List β) (f : α → List β)
    (hbody : ∀ acc a, body acc a = acc ++ f a) :
    ∀ (l : List α) (acc : List β), l.foldl body acc = acc ++ l.flatMap f := by
  intro l
  induction l with
  | nil => intro acc; simp
  | cons a l ih =>
    intro acc
    rw [List.foldl_cons, hbody, ih, List.flatMap_cons, List.append_assoc]

/-- C4: for every selected calendar date, the agenda list is exactly the
Tasks with relative day number (D - today at midnight in whole days) + 1 in
collection order, followed by one row per StructuredItem (memories in
collection order, items in positional order) whose targetDate string equals
D formatted as YYYY.MM.DD; plain string equality, so a malformed targetDate
never matches, and all Tasks precede all memory rows. -/
theorem C4_agenda_characterization (tasks : List Task) (mems : List Memory)
    (diffDays : Int) (dateStr : String) :
    agendaItems tasks mems diffDays dateStr =
      agendaItemsSpec tasks mems diffDays dateStr := by
  unfold agendaItems agendaItemsSpec
  have hbody : ∀ (acc : List AgendaItem) (mem : Memory),
      (mem.structuredContent.foldl (fun (st : List AgendaItem × Nat) item =>
          (if item.targetDate = some dateStr
           then st.1 ++ [memoryAgendaItem mem st.2 item] else st.1, st.2 + 1))
        (acc, 0)).1 =
      acc ++ mem.structuredContent.enum.filterMap (fun p =>
        if p.2.targetDate = some dateStr then some (memoryAgendaItem mem p.1 p.2)
        else none) := by
    intro acc mem
    rw [foldl_push_enumFrom (fun item => item.targetDate = some dateStr)
      (fun i item => memoryAgendaItem mem i item) mem.structuredContent acc 0]
    rfl
  rw [foldl_body_bind _ _ hbody mems []]
  simp

/-- JS `String.prototype.trim`: strip leading and trailing whitespace
(embedded structurally over the character list, since the claims' concrete
inputs contain no exotic space characters). -/
def jsTrim (s : String) : String :=
  String.mk ((((s.data.dropWhile Char.isWhitespace).reverse).dropWhile
    Char.isWhitespace).reverse)

/-- `isProjectNameGloballyUnique` (App.tsx 203-207 / 853-857): "General" is
exempt; otherwise the name must not be any memory's project (the code tests a
`Set` of all projects). -/
def isProjectNameGloballyUnique (mems : List Memory) (name : String) : Bool :=
  if name = "General" then true
  else decide (name ∉ mems.map (fun m => m.project))

/-- `handleAddProject` (App.tsx 403-417 / 1148-1192): reject a blank or
non-unique trimmed name, otherwise prepend the placeholder Memory carrying
the new project. -/
def handleAddProject (mems : List Memory) (cat name : String) (newId : String)
    (now : DateYMD) : List Memory :=
  let trimmedName := jsTrim name
  if trimmedName = "" then mems
  else if ¬ isProjectNameGloballyUnique mems trimmedName then mems
  else
    { id := newId, createdAt := now, originalText := "Manual Project Creation",
      rootCategory := cat, project := trimmedName, subProject := some "General",
      type := "note", tags := [],
      structuredContent := [({ title := "Project Initialized",
                               category := "System",
                               description := "Start adding memories.",
                               targetDate := some (formatDate now),
                               status := some "pending" } : StructuredItem)] } :: mems

/-- `handleDeleteProject` (App.tsx 418 / 1194-1197): remove every Memory with
that project. -/
def handleDeleteProject (mems : List Memory) (name : String) : List Memory :=
  mems.filter (fun m => m.project != name)

/-- `handleUpdateProjectName` (App.tsx 419-423 / 1199-1206): reject a blank
new name, an unchanged name, or a non-unique trimmed new name; otherwise
rewrite every matching memory's project to the trimmed new name. -/
def handleUpdateProjectName (mems : List Memory) (oldName newName : String) :
    List Memory :=
  if jsTrim newName = "" ∨ newName = oldName then mems
  else if ¬ isProjectNameGloballyUnique mems (jsTrim newName) then mems
  else mems.map (fun m =>
    if m.project = oldName then { m with project := jsTrim newName } else m)

/-- `handleAddCategory` (App.tsx 387-391 / 1122-1127): append the trimmed
name unless blank or already present. -/
def handleAddCategory (cats : List String) (name : String) : List String :=
  if jsTrim name = "" then cats
  else if jsTrim name ∈ cats then cats
  else cats ++ [jsTrim name]

/-- `handleDeleteCategory` (App.tsx 392-397 / 1129-1137): reject (with an
alert notice) when at most one entry remains, else remove every entry equal
to the name. -/
def handleDeleteCategory (cats : List String) (cat : String) :
    List String × Option String :=
  if cats.length ≤ 1 then (cats, some "You must have at least one category.")
  else (cats.filter (fun c => c != cat), none)

/-- `handleUpdateCategoryName` (App.tsx 398-402 / 1139-1145): reject a blank
new name or an unchanged name; otherwise rewrite the category entry and
cascade the (raw, untrimmed) new name to every memory's root category. -/
def handleUpdateCategoryName (cats : List String) (mems : List Memory)
    (oldName newName : String) : List String × List Memory :=
  if jsTrim newName = "" ∨ newName = oldName then (cats, mems)
  else (cats.map (fun c => if c = oldName then newName else c),
        mems.map (fun m =>
          if m.rootCategory = oldName then { m with rootCategory := newName } else m))

/-- `handleUpdateMemoryItem` (App.tsx 376-385 / 1108-1119).  The JS index
assignment on a copy of the array is embedded as `List.set`; the view layer
only ever passes in-bounds indices (an out-of-bounds JS write would create a
sparse array, which no caller does). -/
def handleUpdateMemoryItem (mems : List Memory) (memoryId : String)
    (itemIndex : Nat) (updatedItem : StructuredItem) : List Memory :=
  mems.map (fun mem =>
    if mem.id = memoryId then
      { mem with structuredContent := mem.structuredContent.set itemIndex updatedItem }
    else mem)

/-- The three persisted collections (the app's global state). -/
structure AppState where
  memories : List Memory
  tasks : List Task
  categories : List String
deriving DecidableEq, Repr

/-- The startup default state (App.tsx 120-124: empty collections and the
hardcoded default category list). -/
def initState : AppState :=
  { memories := [], tasks := [],
    categories := ["Travel", "Learning", "Inspiration", "Work", "Life"] }

/-- One invocation of a mutation handler of the repository.  Generated ids
and timestamps (`Date.now()`) are parameters of the operation. -/
inductive Op where
  | ingest (inputText : String) (img : Option String) (result : ProcessingResult)
      (newId : String) (now : DateYMD)
  | addTasks (newTasks : List Task)
  | addProject (targetCategory : String) (name : String) (newId : String) (now : DateYMD)
  | renameProject (oldName newName : String)
  | deleteProject (name : String)
  | addCategory (name : String)
  | renameCategory (oldName newName : String)
  | deleteCategory (name : String)
  | deleteItem (memoryId : String) (itemIndex : Nat)
  | updateItem (memoryId : String) (itemIndex : Nat) (item : StructuredItem)
  | toggle (tgt : CompleteTarget)
deriving DecidableEq, Repr

/-- Apply one mutation handler to the state. -/
def applyOp (s : AppState) : Op → AppState
  | .ingest txt img result newId now =>
      { s with memories :=
          handleProcessInputStore s.categories s.memories txt img result newId now }
  | .addTasks ts => { s with tasks := s.tasks ++ ts }
  | .addProject cat name newId now =>
      { s with memories := handleAddProject s.memories cat name newId now }
  | .renameProject o n => { s with memories := handleUpdateProjectName s.memories o n }
  | .deleteProject n => { s with memories := handleDeleteProject s.memories n }
  | .addCategory n => { s with categories := handleAddCategory s.categories n }
  | .renameCategory o n =>
      { s with categories := (handleUpdateCategoryName s.categories s.memories o n).1,
               memories := (handleUpdateCategoryName s.categories s.memories o n).2 }
  | .deleteCategory n =>
      { s with categories := (handleDeleteCategory s.categories n).1 }
  | .deleteItem mid k => { s with memories := handleDeleteMemoryItem s.memories mid k }
  | .updateItem mid k it =>
      { s with memories := handleUpdateMemoryItem s.memories mid k it }
  | .toggle tgt =>
      { s with memories := (handleTaskComplete s.memories s.tasks tgt).1,
               tasks := (handleTaskComplete s.memories s.tasks tgt).2 }

/-- States reachable from the startup default state through the mutation
handlers, restricted to steps allowed by `ok` (instantiating `ok` with the
always-true predicate gives plain handler-level reachability). -/
inductive ReachableG (ok : AppState → Op → Prop) : AppState → Prop where
  | init : ReachableG ok initState
  | step {s : AppState} (op : Op) : ReachableG ok s → ok s op →
      ReachableG ok (applyOp s op)

/-- Plain reachability: any handler, any arguments. -/
def Reachable : AppState → Prop := ReachableG (fun _ _ => True)

/-- Side condition matching the app's only call site of project rename
(App.tsx 583 / 1991-1998): the old name is taken from the derived hierarchy's
project lists, which never contain "General". -/
def projRenameOk (_s : AppState) : Op → Prop
  | .renameProject oldName _ => oldName ≠ "General"
  | _ => True

/-- Side condition: category rename never targets an existing category name
(the handler itself performs no such check, and no view invokes it at all). -/
def catRenameOk (s : AppState) : Op → Prop
  | .renameCategory _ newName => newName ∉ s.categories
  | _ => True

/-- The project-uniqueness invariant of §3: all memories sharing a
non-"General" project name have the same root category (equivalently, the
set of owning categories of each such project has size at most one). -/
def projUnique (mems : List Memory) : Prop :=
  ∀ m1 ∈ mems, ∀ m2 ∈ mems,
    m1.project = m2.project → m1.project ≠ "General" →
      m1.rootCategory = m2.rootCategory

theorem projUnique_lift (l l2 : List Memory)
    (h : ∀ m2 ∈ l2, ∃ m ∈ l, m2.project = m.project ∧ m2.rootCategory = m.rootCategory)
    (hInv : projUnique l) : projUnique l2 := by
  intro m1 hm1 m2 hm2 hproj hne
  obtain ⟨n1, hn1, hp1, hr1⟩ := h m1 hm1
  obtain ⟨n2, hn2, hp2, hr2⟩ := h m2 hm2
  rw [hr1, hr2]
  refine hInv n1 hn1 n2 hn2 ?_ ?_
  · rw [← hp1, ← hp2, hproj]
  · rw [← hp1]; exact hne

theorem projUnique_cons (l : List Memory) (x : Memory) (hInv : projUnique l)
    (hx : ∀ m ∈ l, m.project = x.project → x.project ≠ "General" →
      x.rootCategory = m.rootCategory) : projUnique (x :: l) := by
  intro m1 hm1 m2 hm2 hproj hne
  rcases List.mem_cons.mp hm1 with h1 | h1 <;> rcases List.mem_cons.mp hm2 with h2 | h2
  · rw [h1, h2]
  · subst h1; exact hx m2 h2 hproj.symm hne
  · subst h2
    exact (hx m1 h1 hproj (hproj ▸ hne)).symm
  · exact hInv m1 h1 m2 h2 hproj hne

theorem reconcile_project_cases (cats : List String) (p2c : List (String × String))
    (dc dp : String) :
    (reconcile cats p2c dc dp).2 = "General" ∨
    (objGet p2c dp = some (reconcile cats p2c dc dp).1 ∧
      (reconcile cats p2c dc dp).2 = dp) := by
  unfold reconcile
  by_cases h1 : dp = "General"
  · rw [if_pos h1]; exact Or.inl rfl
  · rw [if_neg h1]
    by_cases h2 : optFalsy (objGet p2c dp) = true
    · rw [if_pos h2]; exact Or.inl rfl
    · rw [if_neg h2]
      refine Or.inr ⟨?_, rfl⟩
      cases hobj : objGet p2c dp with
      | none => rw [hobj] at h2; simp [optFalsy] at h2
      | some c => rfl

theorem unique_spec (mems : List Memory) (name : String)
    (h : isProjectNameGloballyUnique mems name = true) (hng : name ≠ "General") :
    ∀ m ∈ mems, m.project ≠ name := by
  intro m hm hcon
  rw [isProjectNameGloballyUnique, if_neg hng, decide_eq_true_eq] at h
  exact h (List.mem_map.mpr ⟨m, hm, hcon⟩)

theorem handleProcessInputStore_eq (cats : List String) (mems : List Memory)
    (txt : String) (img : Option String) (result : ProcessingResult)
    (newId : String) (now : DateYMD) :
    handleProcessInputStore cats mems txt img result newId now =
      { id := newId, createdAt := now, originalText := txt,
        rootCategory := (reconcile cats
          (projectToCategoryMap (getProjectHierarchy cats mems))
          result.rootCategory result.project).1,
        project := (reconcile cats
          (projectToCategoryMap (getProjectHierarchy cats mems))
          result.rootCategory result.project).2,
        subProject := result.subProject, type := result.type, tags := result.tags,
        structuredContent :=
          result.items.map (fun item => { item with status := some "pending" }),
        attachedImage := jsOrUndef img } :: mems := rfl

theorem projUnique_ingest (cats : List String) (mems : List Memory)
    (txt : String) (img : Option String) (result : ProcessingResult)
    (newId : String) (now : DateYMD) (hInv : projUnique mems) :
    projUnique (handleProcessInputStore cats mems txt img result newId now) := by
  rw [handleProcessInputStore_eq]
  refine projUnique_cons mems _ hInv ?_
  intro m hm hproj hne
  rcases reconcile_project_cases cats
      (projectToCategoryMap (getProjectHierarchy cats mems))
      result.rootCategory result.project with hgen | ⟨hobj, hdp⟩
  · exact absurd hgen hne
  · obtain ⟨m0, hm0, hroot0, hproj0, -⟩ :=
      (projectToCategoryMap_good cats mems _ (objGet_mem hobj)).2
    have hmp : m.project = m0.project := by
      rw [hproj0]
      exact hproj.trans hdp
    have hmg : m.project ≠ "General" := fun hc => hne (hproj.symm.trans hc)
    have hr := hInv m hm m0 hm0 hmp hmg
    exact hroot0.symm.trans hr.symm

theorem projUnique_addProject (mems : List Memory) (cat name newId : String)
    (now : DateYMD) (hInv : projUnique mems) :
    projUnique (handleAddProject mems cat name newId now) := by
  simp only [handleAddProject]
  split
  · exact hInv
  · split
    case isTrue => exact hInv
    case isFalse h2 =>
      have hu : isProjectNameGloballyUnique mems (jsTrim name) = true := by
        by_contra hc
        exact h2 (by simpa using hc)
      refine projUnique_cons mems _ hInv ?_
      intro m hm hproj hne
      exact absurd hproj (unique_spec mems (jsTrim name) hu hne m hm)

theorem projUnique_renameProject (mems : List Memory) (o n : String)
    (ho : o ≠ "General") (hInv : projUnique mems) :
    projUnique (handleUpdateProjectName mems o n) := by
  unfold handleUpdateProjectName
  split
  · exact hInv
  · split
    case isTrue => exact hInv
    case isFalse h2 =>
      have hu : isProjectNameGloballyUnique mems (jsTrim n) = true := by
        by_contra hc
        exact h2 (by simpa using hc)
      intro m1 hm1 m2 hm2 hproj hne
      obtain ⟨n1, hn1, hf1⟩ := List.mem_map.mp hm1
      obtain ⟨n2, hn2, hf2⟩ := List.mem_map.mp hm2
      subst hf1
      subst hf2
      by_cases hc1 : n1.project = o <;> by_cases hc2 : n2.project = o <;>
        simp only [if_pos, if_neg, hc1, hc2, if_true, if_false] at hproj hne ⊢
      · exact hInv n1 hn1 n2 hn2 (hc1.trans hc2.symm) (hc1 ▸ ho)
      · exfalso
        have hng : jsTrim n ≠ "General" := hne
        exact unique_spec mems (jsTrim n) hu hng n2 hn2 hproj.symm
      · exfalso
        have hng : jsTrim n ≠ "General" := fun hc => hne (hproj.trans hc)
        exact unique_spec mems (jsTrim n) hu hng n1 hn1 hproj
      · exact hInv n1 hn1 n2 hn2 hproj hne

theorem projUnique_renameCategory (cats : List String) (mems : List Memory)
    (o n : String) (hInv : projUnique mems) :
    projUnique (handleUpdateCategoryName cats mems o n).2 := by
  unfold handleUpdateCategoryName
  split
  · exact hInv
  · intro m1 hm1 m2 hm2 hproj hne
    obtain ⟨n1, hn1, hf1⟩ := List.mem_map.mp hm1
    obtain ⟨n2, hn2, hf2⟩ := List.mem_map.mp hm2
    subst hf1
    subst hf2
    by_cases hc1 : n1.rootCategory = o <;> by_cases hc2 : n2.rootCategory = o <;>
      simp only [hc1, hc2, if_true, if_false] at hproj hne ⊢
    · exact absurd ((hInv n1 hn1 n2 hn2 hproj hne).symm.trans hc1) hc2
    · exact absurd ((hInv n1 hn1 n2 hn2 hproj hne).trans hc2) hc1
    · exact hInv n1 hn1 n2 hn2 hproj hne

theorem projUnique_deleteProject (mems : List Memory) (name : String)
    (hInv : projUnique mems) : projUnique (handleDeleteProject mems name) :=
  projUnique_lift mems _
    (fun m2 hm2 => ⟨m2, (List.mem_filter.mp hm2).1, rfl, rfl⟩) hInv

theorem projUnique_deleteItem (mems : List Memory) (mid : String) (k : Nat)
    (hInv : projUnique mems) : projUnique (handleDeleteMemoryItem mems mid k) := by
  refine projUnique_lift mems _ ?_ hInv
  intro m2 hm2
  unfold handleDeleteMemoryItem at hm2
  obtain ⟨m, hm, hf⟩ := List.mem_map.mp (List.mem_filter.mp hm2).1
  refine ⟨m, hm, ?_, ?_⟩ <;> rw [← hf] <;> split <;> rfl

theorem projUnique_updateItem (mems : List Memory) (mid : String) (k : Nat)
    (it : StructuredItem) (hInv : projUnique mems) :
    projUnique (handleUpdateMemoryItem mems mid k it) := by
  refine projUnique_lift mems _ ?_ hInv
  intro m2 hm2
  obtain ⟨m, hm, hf⟩ := List.mem_map.mp hm2
  refine ⟨m, hm, ?_, ?_⟩ <;> rw [← hf] <;> split <;> rfl

theorem toggleMemOne_fields (memId : String) (idx : Nat) (m : Memory) :
    (toggleMemOne memId idx m).project = m.project ∧
    (toggleMemOne memId idx m).rootCategory = m.rootCategory := by
  unfold toggleMemOne
  split
  · split <;> exact ⟨rfl, rfl⟩
  · exact ⟨rfl, rfl⟩

theorem projUnique_toggle (mems : List Memory) (tasks : List Task)
    (tgt : CompleteTarget) (hInv : projUnique mems) :
    projUnique (handleTaskComplete mems tasks tgt).1 := by
  cases tgt with
  | task id => exact hInv
  | memoryItem memId idx =>
    refine projUnique_lift mems _ ?_ hInv
    intro m2 hm2
    obtain ⟨m, hm, hf⟩ := List.mem_map.mp hm2
    exact ⟨m, hm, hf ▸ (toggleMemOne_fields memId idx m).1,
      hf ▸ (toggleMemOne_fields memId idx m).2⟩

theorem projUnique_applyOp (s : AppState) (op : Op) (hok : projRenameOk s op)
    (hInv : projUnique s.memories) : projUnique (applyOp s op).memories := by
  cases op with
  | ingest txt img result newId now =>
    exact projUnique_ingest s.categories s.memories txt img result newId now hInv
  | addTasks ts => exact hInv
  | addProject cat name newId now =>
    exact projUnique_addProject s.memories cat name newId now hInv
  | renameProject o n => exact projUnique_renameProject s.memories o n hok hInv
  | deleteProject n => exact projUnique_deleteProject s.memories n hInv
  | addCategory n => exact hInv
  | renameCategory o n =>
    exact projUnique_renameCategory s.categories s.memories o n hInv
  | deleteCategory n => exact hInv
  | deleteItem mid k => exact projUnique_deleteItem s.memories mid k hInv
  | updateItem mid k it => exact projUnique_updateItem s.memories mid k it hInv
  | toggle tgt => exact projUnique_toggle s.memories s.tasks tgt hInv

/-- C2 (amended): in every state reachable through the mutation handlers
with project rename restricted as the app's only call site restricts it (the
old name is taken from the hierarchy's project lists, so it is never
"General"), every non-"General" project is owned by at most one root
category, and an attempt to create a project, or rename one, to a
non-"General" name already used as some Memory's project leaves the state
unchanged. -/
theorem C2_project_uniqueness_invariant (s : AppState)
    (hs : ReachableG projRenameOk s) :
    projUnique s.memories ∧
    (∀ (cat name newId : String) (now : DateYMD), jsTrim name ≠ "General" →
      (∃ m ∈ s.memories, m.project = jsTrim name) →
      applyOp s (.addProject cat name newId now) = s) ∧
    (∀ oldName newName : String, jsTrim newName ≠ "General" →
      (∃ m ∈ s.memories, m.project = jsTrim newName) →
      applyOp s (.renameProject oldName newName) = s) := by
  have hInv : projUnique s.memories := by
    induction hs with
    | init => intro m1 hm1; exact absurd hm1 (List.not_mem_nil m1)
    | step op hprev hok ih => exact projUnique_applyOp _ op hok ih
  refine ⟨hInv, ?_, ?_⟩
  · intro cat name newId now hng hex
    obtain ⟨m, hm, hp⟩ := hex
    have hmem : jsTrim name ∈ s.memories.map (fun m => m.project) :=
      List.mem_map.mpr ⟨m, hm, hp⟩
    have hu : isProjectNameGloballyUnique s.memories (jsTrim name) = false := by
      rw [isProjectNameGloballyUnique, if_neg hng]
      exact decide_eq_false (not_not_intro hmem)
    show { s with memories := handleAddProject s.memories cat name newId now } = s
    have hh : handleAddProject s.memories cat name newId now = s.memories := by
      simp only [handleAddProject]
      split
      · rfl
      · simp [hu]
    rw [hh]
  · intro oldName newName hng hex
    obtain ⟨m, hm, hp⟩ := hex
    have hmem : jsTrim newName ∈ s.memories.map (fun m => m.project) :=
      List.mem_map.mpr ⟨m, hm, hp⟩
    have hu : isProjectNameGloballyUnique s.memories (jsTrim newName) = false := by
      rw [isProjectNameGloballyUnique, if_neg hng]
      exact decide_eq_false (not_not_intro hmem)
    show { s with memories := handleUpdateProjectName s.memories oldName newName } = s
    have hh : handleUpdateProjectName s.memories oldName newName = s.memories := by
      unfold handleUpdateProjectName
      split
      · rfl
      · simp [hu]
    rw [hh]

/-- Witness for C2 (amended) at the startup state. -/
theorem C2_witness :
    ReachableG projRenameOk initState ∧
    (projUnique initState.memories ∧
     (∀ (cat name newId : String) (now : DateYMD), jsTrim name ≠ "General" →
       (∃ m ∈ initState.memories, m.project = jsTrim name) →
       applyOp initState (.addProject cat name newId now) = initState) ∧
     (∀ oldName newName : String, jsTrim newName ≠ "General" →
       (∃ m ∈ initState.memories, m.project = jsTrim newName) →
       applyOp initState (.renameProject oldName newName) = initState)) :=
  ⟨.init, C2_project_uniqueness_invariant initState .init⟩

/-- Fixed generation date for the concrete counterexample states. -/
def d0 : DateYMD := ⟨2025, 1, 1⟩

def placeholderItem : StructuredItem :=
  { title := "Project Initialized", category := "System",
    description := "Start adding memories.", targetDate := some (formatDate d0),
    status := some "pending" }

def memTravelTrip : Memory :=
  { id := "p1", createdAt := d0, originalText := "Manual Project Creation",
    rootCategory := "Travel", project := "Trip", subProject := some "General",
    type := "note", tags := [], structuredContent := [placeholderItem] }

def memLifeTrip : Memory :=
  { id := "p2", createdAt := d0, originalText := "Manual Project Creation",
    rootCategory := "Life", project := "Trip", subProject := some "General",
    type := "note", tags := [], structuredContent := [placeholderItem] }

def badProjState : AppState :=
  { memories := [memLifeTrip, memTravelTrip], tasks := [],
    categories := ["Travel", "Learning", "Inspiration", "Work", "Life"] }

/-- Counterexample to C2 as stated: through the handlers themselves the
uniqueness invariant is reachable-violable: create the exempt project name
"General" under two categories (handleAddProject accepts both), then rename
"General" to the fresh name "Trip" (handleUpdateProjectName checks only the
new name), leaving "Trip" owned by both "Life" and "Travel". -/
theorem C2_counterexample :
    Reachable badProjState ∧ ¬ projUnique badProjState.memories := by
  constructor
  · have h3 : Reachable (applyOp (applyOp (applyOp initState
        (.addProject "Travel" "General" "p1" d0))
        (.addProject "Life" "General" "p2" d0))
        (.renameProject "General" "Trip")) :=
      ReachableG.step _ (ReachableG.step _ (ReachableG.step _ ReachableG.init
        trivial) trivial) trivial
    have heq : applyOp (applyOp (applyOp initState
        (.addProject "Travel" "General" "p1" d0))
        (.addProject "Life" "General" "p2" d0))
        (.renameProject "General" "Trip") = badProjState := by decide
    exact heq ▸ h3
  · intro hcon
    have hpair := hcon memLifeTrip (List.mem_cons_self _ _) memTravelTrip
      (List.mem_cons_of_mem _ (List.mem_cons_self _ _)) (by decide) (by decide)
    exact absurd hpair (by decide)

theorem length_filter_ne_ge (a : String) :
    ∀ (l : List String), l.Nodup →
      l.length - 1 ≤ (l.filter (fun c => c != a)).length := by
  intro l
  induction l with
  | nil => intro _; simp
  | cons x xs ih =>
    intro hnd
    rw [List.filter_cons]
    by_cases hx : x = a
    · have hxa : (x != a) = false := by
        rw [bne_eq_false_iff_eq]
        exact hx
      rw [hxa, if_neg Bool.false_ne_true]
      have hnotin : a ∉ xs := hx ▸ (List.nodup_cons.mp hnd).1
      have hall : xs.filter (fun c => c != a) = xs := by
        refine List.filter_eq_self.mpr ?_
        intro b hb
        rw [bne_iff_ne]
        intro hba
        exact hnotin (hba ▸ hb)
      rw [hall]
      simp
    · have hxa : (x != a) = true := bne_iff_ne.mpr hx
      rw [hxa, if_pos rfl]
      have := ih (List.nodup_cons.mp hnd).2
      simp only [List.length_cons]
      omega

theorem catsInv_applyOp (s : AppState) (op : Op) (hok : catRenameOk s op)
    (hInv : s.categories ≠ [] ∧ s.categories.Nodup) :
    (applyOp s op).categories ≠ [] ∧ (applyOp s op).categories.Nodup := by
  cases op with
  | ingest txt img result newId now => exact hInv
  | addTasks ts => exact hInv
  | addProject cat name newId now => exact hInv
  | renameProject o n => exact hInv
  | deleteProject n => exact hInv
  | deleteItem mid k => exact hInv
  | updateItem mid k it => exact hInv
  | toggle tgt => exact hInv
  | addCategory n =>
    show handleAddCategory s.categories n ≠ [] ∧
      (handleAddCategory s.categories n).Nodup
    unfold handleAddCategory
    split
    · exact hInv
    · split
      · exact hInv
      case isFalse hmem =>
        constructor
        · intro hc
          exact hInv.1 (List.append_eq_nil.mp hc).1
        · refine List.Nodup.append hInv.2 (List.nodup_singleton _) ?_
          intro a ha hax
          rw [List.mem_singleton] at hax
          exact hmem (hax ▸ ha)
  | deleteCategory n =>
    show (handleDeleteCategory s.categories n).1 ≠ [] ∧
      (handleDeleteCategory s.categories n).1.Nodup
    unfold handleDeleteCategory
    split
    · exact hInv
    case isFalse hlen =>
      constructor
      · have hge := length_filter_ne_ge n s.categories hInv.2
        have : 0 < (s.categories.filter (fun c => c != n)).length := by omega
        exact List.ne_nil_of_length_pos this
      · exact List.Nodup.filter _ hInv.2
  | renameCategory o n =>
    show (handleUpdateCategoryName s.categories s.memories o n).1 ≠ [] ∧
      (handleUpdateCategoryName s.categories s.memories o n).1.Nodup
    have hok2 : n ∉ s.categories := hok
    unfold handleUpdateCategoryName
    split
    · exact hInv
    · constructor
      · intro hc
        exact hInv.1 (List.map_eq_nil_iff.mp hc)
      · refine List.Nodup.map_on ?_ hInv.2
        intro x hx y hy hxy
        by_cases hxo : x = o <;> by_cases hyo : y = o <;>
          simp only [hxo, hyo, if_true, if_false] at hxy
        · rw [hxo, hyo]
        · exact absurd (hxy ▸ hy) hok2
        · exact absurd (hxy ▸ hx) hok2
        · exact hxy

/-- C9 (amended): with category rename never targeting an existing category
name (the handler performs no duplicate check, but no view invokes category
rename at all), the category list is non-empty in every reachable state, and
deleting when at most one entry remains leaves the state unchanged and
surfaces only the alert notice. -/
theorem C9_category_list_nonempty (s : AppState)
    (hs : ReachableG catRenameOk s) :
    s.categories ≠ [] ∧
    (∀ c, s.categories.length ≤ 1 →
      applyOp s (.deleteCategory c) = s ∧
      (handleDeleteCategory s.categories c).2 =
        some "You must have at least one category.") := by
  have hInv : s.categories ≠ [] ∧ s.categories.Nodup := by
    induction hs with
    | init => exact ⟨by decide, by decide⟩
    | step op hprev hok ih => exact catsInv_applyOp _ op hok ih
  refine ⟨hInv.1, ?_⟩
  intro c hlen
  have hfst : (handleDeleteCategory s.categories c).1 = s.categories := by
    unfold handleDeleteCategory
    rw [if_pos hlen]
  constructor
  · show { s with categories := (handleDeleteCategory s.categories c).1 } = s
    rw [hfst]
  · unfold handleDeleteCategory
    rw [if_pos hlen]

/-- Witness for C9 (amended) at the startup state. -/
theorem C9_witness :
    ReachableG catRenameOk initState ∧
    (initState.categories ≠ [] ∧
     (∀ c, initState.categories.length ≤ 1 →
       applyOp initState (.deleteCategory c) = initState ∧
       (handleDeleteCategory initState.categories c).2 =
         some "You must have at least one category.")) :=
  ⟨.init, C9_category_list_nonempty initState .init⟩

/-- The reachable state with an empty category list used against C9. -/
def catsEmptyState : AppState := { memories := [], tasks := [], categories := [] }

/-- Counterexample to C9 as stated: renaming "Learning" to the existing name
"Travel" duplicates an entry (handleUpdateCategoryName has no duplicate
check); deleting the other three categories then leaves ["Travel","Travel"],
and deleting "Travel" passes the `length <= 1` guard yet removes both
entries, emptying the category list. -/
theorem C9_counterexample :
    Reachable catsEmptyState ∧ catsEmptyState.categories = [] := by
  constructor
  · have h5 : Reachable (applyOp (applyOp (applyOp (applyOp (applyOp initState
        (.renameCategory "Learning" "Travel"))
        (.deleteCategory "Inspiration"))
        (.deleteCategory "Work"))
        (.deleteCategory "Life"))
        (.deleteCategory "Travel")) :=
      ReachableG.step _ (ReachableG.step _ (ReachableG.step _ (ReachableG.step _
        (ReachableG.step _ ReachableG.init trivial) trivial) trivial) trivial) trivial
    have heq : applyOp (applyOp (applyOp (applyOp (applyOp initState
        (.renameCategory "Learning" "Travel"))
        (.deleteCategory "Inspiration"))
        (.deleteCategory "Work"))
        (.deleteCategory "Life"))
        (.deleteCategory "Travel") = catsEmptyState := by decide
    exact heq ▸ h5
  · rfl

/-- First-occurrence de-duplication, as `Array.from(new Set(xs))`. -/
def firstDedupAux (seen : List String) : List String → List String
  | [] => []
  | x :: xs =>
      if x ∈ seen then firstDedupAux seen xs
      else x :: firstDedupAux (x :: seen) xs

def firstDedup (l : List String) : List String := firstDedupAux [] l

/-- The known-tag list of the Backspace handler (App.tsx 238-239 / 882-883):
categories plus the de-duplicated truthy memory projects. -/
def backspaceTags (cats : List String) (mems : List Memory) : List String :=
  cats ++ (firstDedup (mems.map (fun m => m.project))).filter (fun p => p != "")

/-- Stable insertion into a length-descending list: an element goes after
every entry of length ≥ its own. -/
def insertDesc (x : String) : List String → List String
  | [] => [x]
  | y :: ys => if y.length < x.length then x :: y :: ys else y :: insertDesc x ys

/-- The unique stable sort by descending length — the output of JS
`allTags.sort((a, b) => b.length - a.length)` (Array.prototype.sort is
stable). -/
def sortByLengthDesc : List String → List String
  | [] => []
  | x :: xs => insertDesc x (sortByLengthDesc xs)

/-- The Backspace branch of `handleKeyDown` (App.tsx 232-255 / 872-931) as a
pure text transformation: text as a character list, cursor as a position,
selection assumed empty (the code returns early otherwise).  Returns the new
text and cursor of the preventDefault branch when a known `/tag` ends at the
cursor, and `none` when ordinary single-character deletion is left to run. -/
def backspaceTag (cats : List String) (mems : List Memory)
    (text : List Char) (cursor : Nat) : Option (List Char × Nat) :=
  let textBefore := text.take cursor
  let allTags := sortByLengthDesc (backspaceTags cats mems)
  match allTags.find? (fun tag => ('/' :: tag.data).isSuffixOf textBefore) with
  | some tag =>
      some (text.take (cursor - (tag.length + 1)) ++ text.drop cursor,
            cursor - (tag.length + 1))
  | none => none

theorem mem_insertDesc (x u : String) :
    ∀ l : List String, u ∈ insertDesc x l ↔ u = x ∨ u ∈ l := by
  intro l
  induction l with
  | nil => simp [insertDesc]
  | cons y ys ih =>
    unfold insertDesc
    split
    · simp
    · simp only [List.mem_cons, ih]
      tauto

theorem mem_sortByLengthDesc (u : String) :
    ∀ l : List String, u ∈ sortByLengthDesc l ↔ u ∈ l := by
  intro l
  induction l with
  | nil => simp [sortByLengthDesc]
  | cons x xs ih =>
    unfold sortByLengthDesc
    rw [mem_insertDesc]
    simp [ih]

theorem pairwise_insertDesc (x : String) :
    ∀ l : List String,
      List.Pairwise (fun a b : String => b.length ≤ a.length) l →
      List.Pairwise (fun a b : String => b.length ≤ a.length) (insertDesc x l) := by
  intro l
  induction l with
  | nil => intro _; simp [insertDesc]
  | cons y ys ih =>
    intro hp
    rw [List.pairwise_cons] at hp
    unfold insertDesc
    split
    case isTrue hlt =>
      rw [List.pairwise_cons]
      refine ⟨?_, List.pairwise_cons.mpr hp⟩
      intro z hz
      rcases List.mem_cons.mp hz with h | h
      · rw [h]; omega
      · have := hp.1 z h
        omega
    case isFalse hge =>
      rw [List.pairwise_cons]
      refine ⟨?_, ih hp.2⟩
      intro z hz
      rcases (mem_insertDesc x z ys).mp hz with h | h
      · rw [h]; omega
      · exact hp.1 z h

theorem pairwise_sortByLengthDesc :
    ∀ l : List String,
      List.Pairwise (fun a b : String => b.length ≤ a.length)
        (sortByLengthDesc l) := by
  intro l
  induction l with
  | nil => simp [sortByLengthDesc]
  | cons x xs ih => exact pairwise_insertDesc x _ ih

theorem find?_max_of_sorted (p : String → Bool) :
    ∀ l : List String,
      List.Pairwise (fun a b : String => b.length ≤ a.length) l →
      ∀ t, l.find? p = some t →
        p t = true ∧ ∀ u ∈ l, p u = true → u.length ≤ t.length := by
  intro l
  induction l with
  | nil => intro _ t ht; simp at ht
  | cons x xs ih =>
    intro hp t ht
    rw [List.pairwise_cons] at hp
    rw [List.find?_cons] at ht
    split at ht
    case h_1 hx =>
      cases ht
      refine ⟨hx, ?_⟩
      intro u hu _
      rcases List.mem_cons.mp hu with h | h
      · rw [h]
      · exact hp.1 u h
    case h_2 hx =>
      obtain ⟨hpt, hmax⟩ := ih hp.2 t ht
      refine ⟨hpt, ?_⟩
      intro u hu hup
      rcases List.mem_cons.mp hu with h | h
      · rw [h] at hup
        rw [hup] at hx
        exact Bool.noConfusion hx
      · exact hmax u h hup

theorem find?_isSome_of_mem (p : String → Bool) :
    ∀ l : List String, ∀ t ∈ l, p t = true → ∃ u, l.find? p = some u := by
  intro l
  induction l with
  | nil => intro t ht; simp at ht
  | cons x xs ih =>
    intro t ht hp
    cases hx : p x with
    | true => exact ⟨x, List.find?_cons_of_pos _ hx⟩
    | false =>
      rcases List.mem_cons.mp ht with h | h
      · rw [h] at hp
        rw [hp] at hx
        exact Bool.noConfusion hx
      · obtain ⟨u, hu⟩ := ih t h hp
        refine ⟨u, ?_⟩
        rw [List.find?_cons_of_neg _ (by simp [hx]), hu]

/-- C6: when the cursor sits (with no selection) immediately after a complete
`/tag` token for a known tag (a category or an existing project name), one
Backspace removes an entire `/t` token where `t` is a longest known tag
ending at the cursor, and places the cursor where the token began. -/
theorem C6_backspace_removes_token (cats : List String) (mems : List Memory)
    (text : List Char) (cursor : Nat) (tag : String)
    (htag : tag ∈ backspaceTags cats mems)
    (hend : ('/' :: tag.data).isSuffixOf (text.take cursor) = true) :
    ∃ t, t ∈ backspaceTags cats mems ∧
      ('/' :: t.data).isSuffixOf (text.take cursor) = true ∧
      (∀ u ∈ backspaceTags cats mems,
        ('/' :: u.data).isSuffixOf (text.take cursor) = true →
          u.length ≤ t.length) ∧
      backspaceTag cats mems text cursor =
        some (text.take (cursor - (t.length + 1)) ++ text.drop cursor,
              cursor - (t.length + 1)) := by
  have htag2 : tag ∈ sortByLengthDesc (backspaceTags cats mems) :=
    (mem_sortByLengthDesc tag _).mpr htag
  obtain ⟨t, hfind⟩ := find?_isSome_of_mem
    (fun u => ('/' :: u.data).isSuffixOf (text.take cursor))
    (sortByLengthDesc (backspaceTags cats mems)) tag htag2 hend
  obtain ⟨hpt, hmax⟩ := find?_max_of_sorted _ _
    (pairwise_sortByLengthDesc (backspaceTags cats mems)) t hfind
  refine ⟨t, ?_, hpt, ?_, ?_⟩
  · exact (mem_sortByLengthDesc t _).mp (List.mem_of_find?_eq_some hfind)
  · intro u hu hup
    exact hmax u ((mem_sortByLengthDesc u _).mpr hu) hup
  · simp only [backspaceTag]
    rw [hfind]

/-- A memory carrying the known project "Korea Trip" for the C6 witness. -/
def koreaMem : Memory :=
  { id := "k1", createdAt := ⟨2025, 10, 1⟩, originalText := "korea",
    rootCategory := "Travel", project := "Korea Trip", subProject := none,
    type := "note", tags := [],
    structuredContent :=
      [{ title := "Palace", category := "Sightseeing", description := "go" }] }

/-- Witness for C6, the spec's worked example: with "Korea Trip" a known
project, Backspace right after "Visit /Korea Trip" removes the whole token
(leaving "Visit ") and puts the cursor at position 6, not just deleting one
character. -/
theorem C6_witness :
    ("Korea Trip" ∈ backspaceTags ["Travel", "Life"] [koreaMem] ∧
     ('/' :: "Korea Trip".data).isSuffixOf
       ("Visit /Korea Trip".data.take 17) = true) ∧
    (∃ t, t ∈ backspaceTags ["Travel", "Life"] [koreaMem] ∧
      ('/' :: t.data).isSuffixOf ("Visit /Korea Trip".data.take 17) = true ∧
      (∀ u ∈ backspaceTags ["Travel", "Life"] [koreaMem],
        ('/' :: u.data).isSuffixOf ("Visit /Korea Trip".data.take 17) = true →
          u.length ≤ t.length) ∧
      backspaceTag ["Travel", "Life"] [koreaMem] "Visit /Korea Trip".data 17 =
        some ("Visit /Korea Trip".data.take (17 - (t.length + 1)) ++
                "Visit /Korea Trip".data.drop 17,
              17 - (t.length + 1))) ∧
    backspaceTag ["Travel", "Life"] [koreaMem] "Visit /Korea Trip".data 17 =
      some ("Visit ".data, 6) :=
  ⟨⟨by decide, by decide⟩,
   C6_backspace_removes_token ["Travel", "Life"] [koreaMem]
     "Visit /Korea Trip".data 17 "Korea Trip" (by decide) (by decide),
   by decide⟩

/-- `memory.project || 'General'` — the grouping key of the browser. -/
def projKey (m : Memory) : String := jsOrS m.project "General"

/-- `memory.subProject || 'General'`. -/
def subKey (m : Memory) : String := jsOr m.subProject "General"

/-- The category filter of `renderMemoryView` (App.tsx 559 / 1669-1671). -/
def filterMemories (sel : String) (mems : List Memory) : List Memory :=
  if sel = "All" then mems
  else mems.filter (fun m => jsOrS m.rootCategory "Inspiration" == sel)

/-- The inner two statements of the grouping loop (App.tsx 1680-1683): seed
`groupedData[proj][sub]` with `[]` when absent and push the memory. -/
def subGroupStep (sm : List (String × List Memory)) (memory : Memory) :
    List (String × List Memory) :=
  let sub := subKey memory
  let sm1 := if (objGet sm sub).isNone then objSet sm sub [] else sm
  objSet sm1 sub (((objGet sm1 sub).getD []) ++ [memory])

/-- One step of the grouping forEach (App.tsx 1676-1684): seed
`groupedData[proj]` with `{}` when absent, then update its sub-record. -/
def groupStep (g : List (String × List (String × List Memory))) (memory : Memory) :
    List (String × List (String × List Memory)) :=
  let proj := projKey memory
  let g1 := if (objGet g proj).isNone then objSet g proj [] else g
  objSet g1 proj (subGroupStep ((objGet g1 proj).getD []) memory)

/-- `groupedData` of `renderMemoryView`. -/
def groupedData (sel : String) (mems : List Memory) :
    List (String × List (String × List Memory)) :=
  (filterMemories sel mems).foldl groupStep []

/-- The subgrouping of a memory list by `subProject` (the value `groupedData`
associates to one project key). -/
def subGroupOf (l : List Memory) : List (String × List Memory) :=
  l.foldl subGroupStep []

/-- One rendered card: the addressed item and its effective display date
(`item.targetDate || formatDate(mem.createdAt)`, App.tsx 1822). -/
structure RenderItem where
  memoryId : String
  idx : Nat
  item : StructuredItem
  displayDate : String
deriving DecidableEq, Repr

def renderItemsOf (m : Memory) : List RenderItem :=
  m.structuredContent.enum.map (fun p =>
    { memoryId := m.id, idx := p.1, item := p.2,
      displayDate := jsOr p.2.targetDate (formatDate m.createdAt) })

/-- The flattening of a memory group into cards (memories in group order,
items in positional order), as the folder rendering performs it
(App.tsx 1816-1831). -/
def flatItemsOf (mems : List Memory) : List RenderItem :=
  mems.flatMap renderItemsOf

/-- Stable insertion into a list ascending by display-date string. -/
def insertAsc (x : RenderItem) : List RenderItem → List RenderItem
  | [] => [x]
  | y :: ys =>
      if x.displayDate < y.displayDate then x :: y :: ys else y :: insertAsc x ys

/-- The unique stable ascending sort by display-date string — the output of
`flatItems.sort((a, b) => a.displayDate.localeCompare(b.displayDate))`
(App.tsx 1834; localeCompare on the fixed-width `YYYY.MM.DD` strings is
plain lexicographic comparison). -/
def sortByDateAsc : List RenderItem → List RenderItem
  | [] => []
  | x :: xs => insertAsc x (sortByDateAsc xs)

/-- The flat list rendered before any folder: all cards of the "General"
group (App.tsx 1767-1783; not sorted). -/
def memoryViewGeneral (sel : String) (mems : List Memory) : List RenderItem :=
  match objGet (groupedData sel mems) "General" with
  | some subMap => subMap.flatMap (fun se => flatItemsOf se.2)
  | none => []

/-- The project folders (keys other than "General", in insertion order), each
holding its sub-project sections with the flattened, date-sorted cards
(App.tsx 1786-1859). -/
def memoryViewFolders (sel : String) (mems : List Memory) :
    List (String × List (String × List RenderItem)) :=
  ((groupedData sel mems).filter (fun e => e.1 != "General")).map (fun e =>
    (e.1, e.2.map (fun se => (se.1, sortByDateAsc (flatItemsOf se.2)))))

theorem find?_map_set (k : String) (v : α) :
    ∀ o : List (String × α), o.any (fun e => e.1 == k) = true →
      (o.map (fun e => if e.1 == k then (k, v) else e)).find?
        (fun e => e.1 == k) = some (k, v) := by
  intro o
  induction o with
  | nil => intro h; simp at h
  | cons e o ih =>
    intro h
    simp only [List.map_cons]
    by_cases he : (e.1 == k) = true
    · simp only [he, if_true]
      exact List.find?_cons_of_pos _ (by simp)
    · simp only [he, if_false]
      rw [List.find?_cons_of_neg _ (by simp [he])]
      apply ih
      rw [List.any_cons] at h
      rcases Bool.or_eq_true_iff.mp h with h1 | h1
      · exact absurd h1 he
      · exact h1

theorem find?_append_fresh (k : String) (v : α) :
    ∀ o : List (String × α), o.any (fun e => e.1 == k) = false →
      (o ++ [(k, v)]).find? (fun e => e.1 == k) = some (k, v) := by
  intro o
  induction o with
  | nil => exact fun _ => List.find?_cons_of_pos _ (by simp)
  | cons e o ih =>
    intro h
    rw [List.any_cons, Bool.or_eq_false_iff] at h
    rw [List.cons_append, List.find?_cons_of_neg _ (by simp [h.1])]
    exact ih h.2

theorem objGet_objSet_self (k : String) (v : α) (o : List (String × α)) :
    objGet (objSet o k v) k = some v := by
  unfold objSet objGet
  split
  case isTrue hany => rw [find?_map_set k v o hany]; rfl
  case isFalse hany => rw [find?_append_fresh k v o (Bool.eq_false_iff.mpr hany)]; rfl

theorem objGet_objSet_ne (k k2 : String) (v : α) (hne : k2 ≠ k) :
    ∀ o : List (String × α), objGet (objSet o k v) k2 = objGet o k2 := by
  have hkk : ¬ ((k == k2) = true) := by
    intro h
    exact hne (beq_iff_eq.mp h).symm
  intro o
  unfold objSet
  split
  case isTrue hany =>
    clear hany
    induction o with
    | nil => rfl
    | cons e o ih =>
      simp only [List.map_cons]
      by_cases he : (e.1 == k) = true
      · rw [if_pos he]
        have he2 : ¬ ((e.1 == k2) = true) := by
          intro h2
          exact hne ((beq_iff_eq.mp h2).symm.trans (beq_iff_eq.mp he))
        unfold objGet
        rw [List.find?_cons_of_neg _ (by simpa using hkk),
          List.find?_cons_of_neg _ (by simpa using he2)]
        exact ih
      · rw [if_neg he]
        unfold objGet
        by_cases he2 : (e.1 == k2) = true
        · rw [List.find?_cons_of_pos _ (by simpa using he2),
            List.find?_cons_of_pos _ (by simpa using he2)]
        · rw [List.find?_cons_of_neg _ (by simpa using he2),
            List.find?_cons_of_neg _ (by simpa using he2)]
          exact ih
  case isFalse hany =>
    induction o with
    | nil =>
      unfold objGet
      rw [List.nil_append, List.find?_cons_of_neg _ (by simpa using hkk)]
    | cons e o ih =>
      rw [Bool.not_eq_true, List.any_cons, Bool.or_eq_false_iff] at hany
      rw [← Bool.not_eq_true] at hany
      unfold objGet
      rw [List.cons_append]
      by_cases he2 : (e.1 == k2) = true
      · rw [List.find?_cons_of_pos _ (by simpa using he2),
          List.find?_cons_of_pos _ (by simpa using he2)]
      · rw [List.find?_cons_of_neg _ (by simpa using he2),
          List.find?_cons_of_neg _ (by simpa using he2)]
        exact ih (by simp [hany.2])

theorem objSet_keys (o : List (String × α)) (k : String) (v : α) :
    (objSet o k v).map Prod.fst = o.map Prod.fst ∨
    ((objSet o k v).map Prod.fst = o.map Prod.fst ++ [k] ∧
      k ∉ o.map Prod.fst) := by
  unfold objSet
  split
  case isTrue hany =>
    left
    rw [List.map_map]
    refine List.map_congr_left ?_
    intro e _
    by_cases he : (e.1 == k) = true
    · simp only [Function.comp]
      rw [if_pos he]
      exact (beq_iff_eq.mp he).symm
    · simp only [Function.comp]
      rw [if_neg he]
  case isFalse hany =>
    right
    constructor
    · simp
    · intro hk
      obtain ⟨e, he, hek⟩ := List.mem_map.mp hk
      exact hany (List.any_eq_true.mpr ⟨e, he, beq_iff_eq.mpr hek⟩)

theorem objSet_keys_nodup (o : List (String × α)) (k : String) (v : α)
    (h : (o.map Prod.fst).Nodup) : ((objSet o k v).map Prod.fst).Nodup := by
  rcases objSet_keys o k v with heq | ⟨heq, hnk⟩
  · rw [heq]; exact h
  · rw [heq]
    refine List.Nodup.append h (List.nodup_singleton _) ?_
    intro a ha hax
    rw [List.mem_singleton] at hax
    exact hnk (hax ▸ ha)

theorem objGet_of_mem_nodup :
    ∀ (o : List (String × α)), (o.map Prod.fst).Nodup →
      ∀ e ∈ o, objGet o e.1 = some e.2 := by
  intro o
  induction o with
  | nil => intro _ e he; simp at he
  | cons e0 o ih =>
    intro hnd e he
    rw [List.map_cons, List.nodup_cons] at hnd
    rcases List.mem_cons.mp he with h | h
    · subst h
      unfold objGet
      rw [List.find?_cons_of_pos _ (by simp)]
      rfl
    · have hne : (e0.1 == e.1) = true → False := by
        intro hc
        exact hnd.1 ((beq_iff_eq.mp hc) ▸ List.mem_map.mpr ⟨e, h, rfl⟩)
      unfold objGet
      rw [List.find?_cons_of_neg _ (by simpa using hne)]
      exact ih hnd.2 e h

theorem objGet_none_any (o : List (String × α)) (k : String)
    (h : objGet o k = none) : o.any (fun e => e.1 == k) = false := by
  unfold objGet at h
  cases hf : o.find? (fun e => e.1 == k) with
  | some e0 => rw [hf] at h; simp at h
  | none =>
    rw [Bool.eq_false_iff]
    intro hc
    obtain ⟨e0, he0, hp⟩ := List.any_eq_true.mp hc
    rw [List.find?_eq_none] at hf
    exact hf e0 he0 hp

theorem objGet_some_any (o : List (String × α)) (k : String) (lst : α)
    (h : objGet o k = some lst) : o.any (fun e => e.1 == k) = true := by
  unfold objGet at h
  cases hf : o.find? (fun e => e.1 == k) with
  | none => rw [hf] at h; simp at h
  | some e0 =>
    have hp := List.find?_some hf
    exact List.any_eq_true.mpr ⟨e0, List.mem_of_find?_eq_some hf, hp⟩

theorem objSet_fresh (o : List (String × α)) (k : String) (v : α)
    (h : objGet o k = none) : objSet o k v = o ++ [(k, v)] := by
  unfold objSet
  rw [if_neg (by simp [objGet_none_any o k h])]

theorem subGroupStep_objGet_eq (sm : List (String × List Memory)) (m : Memory) :
    objGet (subGroupStep sm m) (subKey m) =
      some (((objGet sm (subKey m)).getD []) ++ [m]) := by
  simp only [subGroupStep]
  cases hobj : objGet sm (subKey m) with
  | none =>
    simp only [Option.isNone_none, if_true, Option.getD_none]
    rw [objGet_objSet_self, objGet_objSet_self]
    simp
  | some lst =>
    simp only [Option.isNone_some, Bool.false_eq_true, if_false, Option.getD_some]
    rw [hobj, objGet_objSet_self]
    simp

theorem subGroupStep_objGet_ne (sm : List (String × List Memory)) (m : Memory)
    (sub : String) (h : sub ≠ subKey m) :
    objGet (subGroupStep sm m) sub = objGet sm sub := by
  simp only [subGroupStep]
  split
  · rw [objGet_objSet_ne _ _ _ h, objGet_objSet_ne _ _ _ h]
  · rw [objGet_objSet_ne _ _ _ h]

theorem groupStep_objGet_eq (g : List (String × List (String × List Memory)))
    (m : Memory) :
    objGet (groupStep g m) (projKey m) =
      some (subGroupStep ((objGet g (projKey m)).getD []) m) := by
  simp only [groupStep]
  cases hobj : objGet g (projKey m) with
  | none =>
    simp only [Option.isNone_none, if_true, Option.getD_none]
    rw [objGet_objSet_self, objGet_objSet_self]
    simp
  | some sm =>
    simp only [Option.isNone_some, Bool.false_eq_true, if_false, Option.getD_some]
    rw [hobj, objGet_objSet_self]
    simp

theorem groupStep_objGet_ne (g : List (String × List (String × List Memory)))
    (m : Memory) (p : String) (h : p ≠ projKey m) :
    objGet (groupStep g m) p = objGet g p := by
  simp only [groupStep]
  split
  · rw [objGet_objSet_ne _ _ _ h, objGet_objSet_ne _ _ _ h]
  · rw [objGet_objSet_ne _ _ _ h]

theorem subGroupStep_keys_nodup (sm : List (String × List Memory)) (m : Memory)
    (h : (sm.map Prod.fst).Nodup) :
    ((subGroupStep sm m).map Prod.fst).Nodup := by
  simp only [subGroupStep]
  split
  · exact objSet_keys_nodup _ _ _ (objSet_keys_nodup _ _ _ h)
  · exact objSet_keys_nodup _ _ _ h

theorem groupStep_keys_nodup (g : List (String × List (String × List Memory)))
    (m : Memory) (h : (g.map Prod.fst).Nodup) :
    ((groupStep g m).map Prod.fst).Nodup := by
  simp only [groupStep]
  split
  · exact objSet_keys_nodup _ _ _ (objSet_keys_nodup _ _ _ h)
  · exact objSet_keys_nodup _ _ _ h

theorem subGroup_fold_keys_nodup :
    ∀ (l : List Memory) (sm : List (String × List Memory)),
      (sm.map Prod.fst).Nodup →
      ((l.foldl subGroupStep sm).map Prod.fst).Nodup := by
  intro l
  induction l with
  | nil => intro sm h; exact h
  | cons m l ih =>
    intro sm h
    exact ih _ (subGroupStep_keys_nodup sm m h)

theorem grouped_fold_keys_nodup :
    ∀ (l : List Memory) (g : List (String × List (String × List Memory))),
      (g.map Prod.fst).Nodup →
      ((l.foldl groupStep g).map Prod.fst).Nodup := by
  intro l
  induction l with
  | nil => intro g h; exact h
  | cons m l ih =>
    intro g h
    exact ih _ (groupStep_keys_nodup g m h)

theorem groupedData_keys_nodup (sel : String) (mems : List Memory) :
    ((groupedData sel mems).map Prod.fst).Nodup :=
  grouped_fold_keys_nodup _ [] (by simp)

theorem subGroupOf_keys_nodup (l : List Memory) :
    ((subGroupOf l).map Prod.fst).Nodup :=
  subGroup_fold_keys_nodup l [] (by simp)

theorem subGroup_fold_objGet :
    ∀ (l : List Memory) (sm : List (String × List Memory)) (sub : String),
      objGet (l.foldl subGroupStep sm) sub =
        if (objGet sm sub).isNone ∧ (l.filter (fun m => subKey m == sub)).isEmpty
        then none
        else some (((objGet sm sub).getD []) ++
          l.filter (fun m => subKey m == sub)) := by
  intro l
  induction l with
  | nil =>
    intro sm sub
    simp only [List.foldl_nil, List.filter_nil, List.isEmpty_nil, and_true]
    cases hobj : objGet sm sub with
    | none => simp
    | some lst => simp
  | cons m l ih =>
    intro sm sub
    rw [List.foldl_cons, ih, List.filter_cons]
    by_cases hsk : (subKey m == sub) = true
    · have hs : sub = subKey m := (beq_iff_eq.mp hsk).symm
      have hstep : objGet (subGroupStep sm m) sub =
          some (((objGet sm sub).getD []) ++ [m]) := by
        rw [hs]
        exact subGroupStep_objGet_eq sm m
      rw [hstep, if_pos hsk, if_neg (by simp), if_neg (by simp)]
      rw [Option.getD_some, List.append_assoc, List.singleton_append]
    · have hs : sub ≠ subKey m := fun hc => hsk (beq_iff_eq.mpr hc.symm)
      rw [subGroupStep_objGet_ne sm m sub hs, if_neg hsk]

theorem grouped_fold_objGet :
    ∀ (l : List Memory) (g : List (String × List (String × List Memory)))
      (p : String),
      objGet (l.foldl groupStep g) p =
        if (objGet g p).isNone ∧ (l.filter (fun m => projKey m == p)).isEmpty
        then none
        else some ((l.filter (fun m => projKey m == p)).foldl subGroupStep
          ((objGet g p).getD [])) := by
  intro l
  induction l with
  | nil =>
    intro g p
    simp only [List.foldl_nil, List.filter_nil, List.isEmpty_nil, and_true]
    cases hobj : objGet g p with
    | none => simp
    | some sm => simp
  | cons m l ih =>
    intro g p
    rw [List.foldl_cons, ih, List.filter_cons]
    by_cases hpk : (projKey m == p) = true
    · have hp : p = projKey m := (beq_iff_eq.mp hpk).symm
      have hstep : objGet (groupStep g m) p =
          some (subGroupStep ((objGet g p).getD []) m) := by
        rw [hp]
        exact groupStep_objGet_eq g m
      rw [hstep, if_pos hpk, if_neg (by simp), if_neg (by simp)]
      rw [Option.getD_some, List.foldl_cons]
    · have hp2 : p ≠ projKey m := fun hc => hpk (beq_iff_eq.mpr hc.symm)
      rw [groupStep_objGet_ne g m p hp2, if_neg hpk]

theorem groupedData_objGet (sel : String) (mems : List Memory) (p : String) :
    objGet (groupedData sel mems) p =
      if ((filterMemories sel mems).filter (fun m => projKey m == p)).isEmpty
      then none
      else some (subGroupOf
        ((filterMemories sel mems).filter (fun m => projKey m == p))) := by
  unfold groupedData subGroupOf
  rw [grouped_fold_objGet]
  have h0 : objGet ([] : List (String × List (String × List Memory))) p = none := rfl
  rw [h0]
  simp

theorem groupedData_entry (sel : String) (mems : List Memory) :
    ∀ e ∈ groupedData sel mems,
      e.2 = subGroupOf
        ((filterMemories sel mems).filter (fun m => projKey m == e.1)) := by
  intro e he
  have hget := objGet_of_mem_nodup _ (groupedData_keys_nodup sel mems) e he
  rw [groupedData_objGet] at hget
  split at hget
  · exact absurd hget (by simp)
  · exact (Option.some.inj hget).symm

theorem subGroupOf_entry (l : List Memory) :
    ∀ se ∈ subGroupOf l, se.2 = l.filter (fun m => subKey m == se.1) := by
  intro se hse
  have hget := objGet_of_mem_nodup _ (subGroupOf_keys_nodup l) se hse
  unfold subGroupOf at hget
  rw [subGroup_fold_objGet] at hget
  have h0 : objGet ([] : List (String × List Memory)) se.1 = none := rfl
  rw [h0] at hget
  simp only [Option.isNone_none, true_and, Option.getD_none, List.nil_append] at hget
  split at hget
  · exact absurd hget (by simp)
  · exact (Option.some.inj hget).symm

theorem flatten_objSet_existing (k : String) (x : Memory) (lst : List Memory) :
    ∀ sm : List (String × List Memory), (sm.map Prod.fst).Nodup →
      objGet sm k = some lst →
      List.Perm ((objSet sm k (lst ++ [x])).flatMap (fun e => e.2))
        (sm.flatMap (fun e => e.2) ++ [x]) := by
  intro sm
  induction sm with
  | nil => intro _ hobj; simp [objGet] at hobj
  | cons e sm ih =>
    intro hnd hobj
    rw [List.map_cons, List.nodup_cons] at hnd
    by_cases he : (e.1 == k) = true
    · have hlst : lst = e.2 := by
        have hf : List.find? (fun e2 : String × List Memory => e2.1 == k) (e :: sm)
            = some e := List.find?_cons_of_pos _ he
        unfold objGet at hobj
        rw [hf] at hobj
        simp only [Option.map_some'] at hobj
        exact (Option.some.inj hobj).symm
      have hkeq : k = e.1 := (beq_iff_eq.mp he).symm
      have htail : sm.map (fun e2 => if (e2.1 == k) = true then (k, lst ++ [x]) else e2)
          = sm := by
        refine map_id_of_mem sm _ ?_
        intro e2 he2
        rw [if_neg ?_]
        intro hc
        have h1 : e2.1 = e.1 := by rw [beq_iff_eq.mp hc, hkeq]
        exact hnd.1 (h1 ▸ List.mem_map.mpr ⟨e2, he2, rfl⟩)
      have hset : objSet (e :: sm) k (lst ++ [x]) = (k, lst ++ [x]) :: sm := by
        unfold objSet
        rw [if_pos (by simp [List.any_cons, he])]
        simp only [List.map_cons, he, if_true]
        rw [htail]
      rw [hset]
      simp only [List.flatMap_cons, hlst]
      refine List.Perm.trans (List.Perm.of_eq (List.append_assoc e.2 [x] _)) ?_
      refine List.Perm.trans (List.Perm.append_left e.2 List.perm_append_comm) ?_
      rw [← List.append_assoc]
    · have hobj2 : objGet sm k = some lst := by
        unfold objGet at hobj ⊢
        rw [List.find?_cons_of_neg _ (by simpa using he)] at hobj
        exact hobj
      have hany2 : sm.any (fun e2 => e2.1 == k) = true := objGet_some_any sm k lst hobj2
      have hset : objSet (e :: sm) k (lst ++ [x]) = e :: objSet sm k (lst ++ [x]) := by
        unfold objSet
        rw [if_pos (by simp [List.any_cons, hany2]), if_pos hany2]
        simp only [List.map_cons, he, if_false]
        simp
      rw [hset]
      simp only [List.flatMap_cons]
      refine List.Perm.trans (List.Perm.append_left e.2 (ih hnd.2 hobj2)) ?_
      rw [← List.append_assoc]

theorem subGroupStep_flatMap (sm : List (String × List Memory)) (m : Memory)
    (hnd : (sm.map Prod.fst).Nodup) :
    List.Perm ((subGroupStep sm m).flatMap (fun e => e.2))
      (sm.flatMap (fun e => e.2) ++ [m]) := by
  simp only [subGroupStep]
  cases hobj : objGet sm (subKey m) with
  | none =>
    simp only [Option.isNone_none, if_true, Option.getD_none]
    have hget1 : objGet (objSet sm (subKey m) []) (subKey m) = some [] :=
      objGet_objSet_self _ _ _
    rw [hget1, Option.getD_some]
    have h1 := flatten_objSet_existing (subKey m) m []
      (objSet sm (subKey m) []) (objSet_keys_nodup _ _ _ hnd) hget1
    refine List.Perm.trans h1 ?_
    rw [objSet_fresh sm (subKey m) [] hobj]
    simp
  | some lst =>
    simp only [Option.isNone_some, Bool.false_eq_true, if_false, Option.getD_some]
    rw [hobj, Option.getD_some]
    exact flatten_objSet_existing (subKey m) m lst sm hnd hobj

theorem subGroup_fold_flatMap :
    ∀ (l : List Memory) (sm : List (String × List Memory)),
      (sm.map Prod.fst).Nodup →
      List.Perm ((l.foldl subGroupStep sm).flatMap (fun e => e.2))
        ((sm.flatMap (fun e => e.2)) ++ l) := by
  intro l
  induction l with
  | nil => intro sm _; simp
  | cons m l ih =>
    intro sm hnd
    rw [List.foldl_cons]
    refine List.Perm.trans (ih _ (subGroupStep_keys_nodup sm m hnd)) ?_
    refine List.Perm.trans (List.Perm.append_right l (subGroupStep_flatMap sm m hnd)) ?_
    rw [List.append_assoc, List.singleton_append]

theorem subGroupOf_flatMap (l : List Memory) :
    List.Perm ((subGroupOf l).flatMap (fun e => e.2)) l := by
  have h := subGroup_fold_flatMap l [] (by simp)
  simpa using h

theorem mem_insertAsc (x u : RenderItem) :
    ∀ l : List RenderItem, u ∈ insertAsc x l ↔ u = x ∨ u ∈ l := by
  intro l
  induction l with
  | nil => simp [insertAsc]
  | cons y ys ih =>
    unfold insertAsc
    split
    · simp
    · simp only [List.mem_cons, ih]
      tauto

theorem insertAsc_pairwise (x : RenderItem) :
    ∀ l : List RenderItem,
      List.Pairwise (fun a b : RenderItem => a.displayDate ≤ b.displayDate) l →
      List.Pairwise (fun a b : RenderItem => a.displayDate ≤ b.displayDate)
        (insertAsc x l) := by
  intro l
  induction l with
  | nil => intro _; simp [insertAsc]
  | cons y ys ih =>
    intro hp
    rw [List.pairwise_cons] at hp
    unfold insertAsc
    split
    case isTrue hlt =>
      rw [List.pairwise_cons]
      refine ⟨?_, List.pairwise_cons.mpr hp⟩
      intro z hz
      rcases List.mem_cons.mp hz with h | h
      · rw [h]; exact le_of_lt hlt
      · exact le_trans (le_of_lt hlt) (hp.1 z h)
    case isFalse hge =>
      rw [List.pairwise_cons]
      refine ⟨?_, ih hp.2⟩
      intro z hz
      rcases (mem_insertAsc x z ys).mp hz with h | h
      · rw [h]; exact not_lt.mp hge
      · exact hp.1 z h

theorem sortByDateAsc_pairwise :
    ∀ l : List RenderItem,
      List.Pairwise (fun a b : RenderItem => a.displayDate ≤ b.displayDate)
        (sortByDateAsc l) := by
  intro l
  induction l with
  | nil => simp [sortByDateAsc]
  | cons x xs ih => exact insertAsc_pairwise x _ ih

theorem insertAsc_perm (x : RenderItem) :
    ∀ l : List RenderItem, List.Perm (insertAsc x l) (x :: l) := by
  intro l
  induction l with
  | nil => exact List.Perm.refl _
  | cons y ys ih =>
    unfold insertAsc
    split
    · exact List.Perm.refl _
    · exact List.Perm.trans (List.Perm.cons y ih) (List.Perm.swap x y ys)

theorem sortByDateAsc_perm : ∀ l : List RenderItem, List.Perm (sortByDateAsc l) l := by
  intro l
  induction l with
  | nil => exact List.Perm.refl _
  | cons x xs ih =>
    exact List.Perm.trans (insertAsc_perm x (sortByDateAsc xs)) (List.Perm.cons x ih)

theorem memoryViewGeneral_perm (sel : String) (mems : List Memory) :
    List.Perm (memoryViewGeneral sel mems)
      (flatItemsOf ((filterMemories sel mems).filter
        (fun m => projKey m == "General"))) := by
  unfold memoryViewGeneral
  rw [groupedData_objGet]
  by_cases hemp : ((filterMemories sel mems).filter
      (fun m => projKey m == "General")).isEmpty = true
  · rw [if_pos hemp, List.isEmpty_iff.mp hemp]
    exact List.Perm.nil
  · rw [if_neg hemp]
    show List.Perm
      ((subGroupOf ((filterMemories sel mems).filter
        (fun m => projKey m == "General"))).flatMap
          (fun se => se.2.flatMap renderItemsOf))
      (((filterMemories sel mems).filter
        (fun m => projKey m == "General")).flatMap renderItemsOf)
    rw [← List.flatMap_assoc]
    exact List.Perm.flatMap_right renderItemsOf (subGroupOf_flatMap _)

/-- C7: the memory browser first filters by the selected category, renders
the items of "General"-project memories in a flat list outside any folder
(exactly those items, as a permutation), renders every other project as a
folder (no folder is named "General" and every non-"General" filtered memory
has one), and within each folder presents each sub-project section as the
stable date-ascending sort of the flattened items of the memories grouped
under that project and sub-project. -/
theorem C7_memory_browser_grouping (sel : String) (mems : List Memory) :
    (List.Perm (memoryViewGeneral sel mems)
      (flatItemsOf ((filterMemories sel mems).filter
        (fun m => projKey m == "General")))) ∧
    (∀ pf ∈ memoryViewFolders sel mems,
      pf.1 ≠ "General" ∧
      ∀ sf ∈ pf.2,
        sf.2 = sortByDateAsc (flatItemsOf
          (((filterMemories sel mems).filter (fun m => projKey m == pf.1)).filter
            (fun m => subKey m == sf.1))) ∧
        List.Pairwise (fun a b : RenderItem => a.displayDate ≤ b.displayDate)
          sf.2 ∧
        List.Perm sf.2 (flatItemsOf
          (((filterMemories sel mems).filter (fun m => projKey m == pf.1)).filter
            (fun m => subKey m == sf.1)))) ∧
    (∀ m ∈ filterMemories sel mems, projKey m ≠ "General" →
      ∃ pf ∈ memoryViewFolders sel mems, pf.1 = projKey m) := by
  refine ⟨memoryViewGeneral_perm sel mems, ?_, ?_⟩
  · intro pf hpf
    unfold memoryViewFolders at hpf
    obtain ⟨e, he, hfe⟩ := List.mem_map.mp hpf
    have hene := (List.mem_filter.mp he).2
    have hkey : pf.1 = e.1 := by rw [← hfe]
    constructor
    · rw [hkey]
      exact bne_iff_ne.mp hene
    · intro sf hsf
      have hsub : sf ∈ e.2.map (fun se =>
          (se.1, sortByDateAsc (flatItemsOf se.2))) := by
        rw [← hfe] at hsf
        exact hsf
      obtain ⟨se, hse, hfse⟩ := List.mem_map.mp hsub
      have he2 := groupedData_entry sel mems e (List.mem_filter.mp he).1
      have hse2 := subGroupOf_entry _ se (he2 ▸ hse)
      have hval : sf.2 = sortByDateAsc (flatItemsOf se.2) := by rw [← hfse]
      have hskey : sf.1 = se.1 := by rw [← hfse]
      have hse3 : se.2 = ((filterMemories sel mems).filter
          (fun m => projKey m == pf.1)).filter (fun m => subKey m == sf.1) := by
        rw [hse2, hskey, hkey]
      refine ⟨?_, ?_, ?_⟩
      · rw [hval, hse3]
      · rw [hval]
        exact sortByDateAsc_pairwise _
      · rw [hval, hse3]
        exact sortByDateAsc_perm _
  · intro m hm hng
    have hmem : m ∈ (filterMemories sel mems).filter
        (fun m2 => projKey m2 == projKey m) :=
      List.mem_filter.mpr ⟨hm, by simp⟩
    have hne : ¬ ((filterMemories sel mems).filter
        (fun m2 => projKey m2 == projKey m)).isEmpty = true := by
      intro hc
      rw [List.isEmpty_iff] at hc
      rw [hc] at hmem
      exact absurd hmem (List.not_mem_nil m)
    have hobj : objGet (groupedData sel mems) (projKey m) =
        some (subGroupOf ((filterMemories sel mems).filter
          (fun m2 => projKey m2 == projKey m))) := by
      rw [groupedData_objGet, if_neg hne]
    have hent := objGet_mem hobj
    refine ⟨(projKey m, (subGroupOf ((filterMemories sel mems).filter
        (fun m2 => projKey m2 == projKey m))).map (fun se =>
          (se.1, sortByDateAsc (flatItemsOf se.2)))), ?_, rfl⟩
    unfold memoryViewFolders
    refine List.mem_map.mpr ⟨(projKey m, subGroupOf ((filterMemories sel mems).filter
      (fun m2 => projKey m2 == projKey m))), ?_, rfl⟩
    refine List.mem_filter.mpr ⟨hent, ?_⟩
    simpa using hng

/-- Strip the regex match of a trailing code fence with preceding whitespace
(the second `.replace` of `cleanJson`): when the text ends in three backticks,
remove them and the whitespace before them; otherwise leave the text alone. -/
def stripTrailingFence (l : List Char) : List Char :=
  let r := l.reverse
  if r.take 3 = ("```".data).reverse then
    ((r.drop 3).dropWhile Char.isWhitespace).reverse
  else l

/-- `cleanJson` of geminiService.ts: falsy text becomes an empty JSON object,
otherwise the text is trimmed and a leading markdown fence (with trailing
whitespace) and a closing fence (with leading whitespace) are stripped. -/
def cleanJson (text : String) : String :=
  if text = "" then String.mk ("\x7b\x7d".data) else
  let clean := (jsTrim text).data
  if clean.take 7 = "```json".data then
    String.mk (stripTrailingFence ((clean.drop 7).dropWhile Char.isWhitespace))
  else if clean.take 3 = "```".data then
    String.mk (stripTrailingFence ((clean.drop 3).dropWhile Char.isWhitespace))
  else String.mk clean

/-- The outcome of the `processInput` service call (geminiService.ts 41-145):
the raw gateway result is either a thrown error or the nullable response text;
a falsy text raises "No response from AI", otherwise the fence-cleaned text is
parsed (JSON.parse is abstracted by `parse`), a parse failure raising "Failed
to parse AI response."; every raised error re-throws to the caller. -/
def processInputResult (parse : String → Option ProcessingResult)
    (raw : Except String (Option String)) : Except String ProcessingResult :=
  match raw with
  | .error e => .error e
  | .ok none => .error "No response from AI"
  | .ok (some txt) =>
      if txt = "" then .error "No response from AI"
      else
        match parse (cleanJson txt) with
        | some r => .ok r
        | none => .error "Failed to parse AI response."

/-- The classification branch of `handleProcessInput` (App.tsx 297-345): the
try body performs no state mutation before the awaited call resolves; on
success the reconciled Memory is stored, and on any rejection control reaches
the catch block, which only alerts the fixed failure notice, so both
collections come back unchanged and no exception escapes the handler. -/
def handleProcessInputOutcome (cats : List String) (mems : List Memory)
    (tasks : List Task) (inputText : String) (img : Option String)
    (parse : String → Option ProcessingResult)
    (raw : Except String (Option String)) (newId : String) (now : DateYMD) :
    (List Memory × List Task) × Option String :=
  match processInputResult parse raw with
  | .error _ =>
      ((mems, tasks), some "Processing failed. Check API key or input size.")
  | .ok result =>
      ((handleProcessInputStore cats mems inputText img result newId now,
        tasks), none)

/-- C8: whenever the classification call fails — a thrown network error, a
missing or empty response text, or a response whose fence-stripped cleaning
fails to parse as JSON — the handler returns the Memories and Tasks
collections exactly as they were, surfaces the fixed visible failure notice,
and returns normally, the outcome being a total function (the catch block
converts every rejection, so no exception propagates out of the handler). -/
theorem C8_failure_is_harmless (cats : List String) (mems : List Memory)
    (tasks : List Task) (inputText : String) (img : Option String)
    (parse : String → Option ProcessingResult)
    (raw : Except String (Option String)) (newId : String) (now : DateYMD)
    (h : (∃ e, raw = .error e) ∨ raw = .ok none ∨ raw = .ok (some "") ∨
         (∃ txt, raw = .ok (some txt) ∧ txt ≠ "" ∧ parse (cleanJson txt) = none)) :
    handleProcessInputOutcome cats mems tasks inputText img parse raw newId now =
      ((mems, tasks), some "Processing failed. Check API key or input size.") := by
  rcases h with ⟨e, he⟩ | hr | hr | ⟨txt, hr, hne, hp⟩
  · subst he
    rfl
  · subst hr
    rfl
  · subst hr
    rfl
  · subst hr
    simp only [handleProcessInputOutcome, processInputResult, if_neg hne, hp]

/-- Concrete instance of C8: a rejected network call with a parser that always
fails leaves an example state untouched and produces the failure notice. -/
theorem C8_witness :
    handleProcessInputOutcome ["Travel"] [] [] "visit Japan" none
        (fun _ => none) (Except.error "network down") "id1" d0 =
      (([], []), some "Processing failed. Check API key or input size.") :=
  C8_failure_is_harmless ["Travel"] [] [] "visit Japan" none
    (fun _ => none) (Except.error "network down") "id1" d0
    (Or.inl ⟨"network down", rfl⟩)

end MyOS
